import Mathlib

/-!
Verification development for the EnsuraScript compilation-and-enforcement
pipeline.  The Go sources under `pkg/` are shallowly embedded: each Go
function becomes an executable Lean definition over explicit state; Go maps
become association lists or functions, with the (nondeterministic) map
iteration order exposed as an explicit parameter wherever it can influence
the output.  Go `nil` pointers become `Option`, Go `int` becomes `Int`,
Go byte slices become `List Nat`.
-/

namespace Ensura

/-- Source position, from `pkg/lexer/token.go` (`Position`). -/
structure Position where
  filename : String
  line : Nat
  column : Nat
  offset : Nat
deriving DecidableEq

/-- `Position.String()` from `token.go`: `file:line:col`, or `line:col`
when the filename is empty. -/
def Position.str (p : Position) : String :=
  if p.filename ≠ "" then
    p.filename ++ ":" ++ toString p.line ++ ":" ++ toString p.column
  else
    toString p.line ++ ":" ++ toString p.column

/-- `ast.ResourceRef` from `pkg/ast/ast.go`. -/
structure ResourceRef where
  position : Position
  resourceType : String
  path : String
  aliasName : String
deriving DecidableEq

/-- Go `%q` quoting of a string.  The embedding only quotes, it does not
escape interior characters; no input in this development contains a
character that `%q` would escape. -/
def goQuote (s : String) : String := "\"" ++ s ++ "\""

/-- `ResourceRef.String()` from `ast.go`: the alias when present, else
`type "path"`. -/
def ResourceRef.str (r : ResourceRef) : String :=
  if r.aliasName ≠ "" then r.aliasName
  else r.resourceType ++ " " ++ goQuote r.path

/-- `ast.HandlerSpec`; the Go `map[string]string` argument map is embedded
as an association list in insertion order with unique keys. -/
structure HandlerSpec where
  position : Position
  name : String
  args : List (String × String)
deriving DecidableEq

/-- `ast.ViolationHandler`. -/
structure ViolationHandler where
  position : Position
  retry : Int
  notify : List String
deriving DecidableEq

/-- `ast.GuardExpr`. -/
structure GuardExpr where
  position : Position
  left : String
  operator : String
  right : String
deriving DecidableEq

/-- `ast.EnsureStmt`.  Note that the Go struct has no `IsImplied` field:
the statement type carries no marker distinguishing user-written from
implication-synthesized statements. -/
structure EnsureStmt where
  position : Position
  condition : String
  subject : Option ResourceRef
  handler : Option HandlerSpec
  guard : Option GuardExpr
  requires : List String
  requiresResource : List ResourceRef
  after : List ResourceRef
  before : List ResourceRef
  violationHandler : Option ViolationHandler
deriving DecidableEq

/-- `ast.ResourceDecl`. -/
structure ResourceDecl where
  position : Position
  resourceType : String
  path : String
  aliasName : String
deriving DecidableEq

/-- `ast.Statement`, the tagged union of statement forms from `ast.go`. -/
inductive Statement where
  | resourceDecl (d : ResourceDecl)
  | ensure (e : EnsureStmt)
  | onBlock (pos : Position) (subject : Option ResourceRef) (body : List Statement)
  | policyDecl (pos : Position) (name : String) (params : List String)
      (body : List Statement)
  | applyStmt (pos : Position) (policyName : String) (args : List String)
  | forEach (pos : Position) (itemType : String) (container : Option ResourceRef)
      (body : List Statement)
  | invariantBlock (pos : Position) (body : List Statement)
  | onViolationBlock (pos : Position) (handler : ViolationHandler)
  | assumeStmt (pos : Position) (guard : Option GuardExpr) (simple : String)
  | parallelBlock (pos : Position) (body : List Statement)

/-- Association-list lookup, modelling a Go map read (`m[k]`, `ok` form). -/
def lookupAssoc {α : Type} : List (String × α) → String → Option α
  | [], _ => none
  | (k, v) :: rest, key => if k = key then some v else lookupAssoc rest key

/-- Association-list insert, modelling a Go map write `m[k] = v`
(overwrites the existing binding, else appends). -/
def insertAssoc {α : Type} : List (String × α) → String → α → List (String × α)
  | [], key, v => [(key, v)]
  | (k, w) :: rest, key, v =>
      if k = key then (k, v) :: rest else (k, w) :: insertAssoc rest key v

/-- Payload of a registered `ast.PolicyDecl`, as stored in the binder's
`PolicyTable`. -/
structure PolicyInfo where
  position : Position
  name : String
  params : List String
  statements : List Statement

/-- `binder.ResourceTable`: resources keyed by `type:path` and by alias. -/
structure ResourceTable where
  byPath : List (String × ResourceDecl)
  byAlias : List (String × ResourceDecl)

/-- `ResourceTable.Add` from `binder.go`.  Returns the updated table and an
error message on a duplicate `type:path` key or duplicate alias. -/
def ResourceTable.add (rt : ResourceTable) (d : ResourceDecl) :
    ResourceTable × Option String :=
  let key := d.resourceType ++ ":" ++ d.path
  match lookupAssoc rt.byPath key with
  | some existing =>
      (rt, some ("duplicate resource declaration: " ++ key ++
        " (first declared at " ++ existing.position.str ++ ")"))
  | none =>
      let rt1 : ResourceTable := ⟨insertAssoc rt.byPath key d, rt.byAlias⟩
      if d.aliasName ≠ "" then
        match lookupAssoc rt1.byAlias d.aliasName with
        | some existing =>
            (rt1, some ("duplicate alias: " ++ d.aliasName ++
              " (first declared at " ++ existing.position.str ++ ")"))
        | none => (⟨rt1.byPath, insertAssoc rt1.byAlias d.aliasName d⟩, none)
      else (rt1, none)

/-- `ResourceTable.Lookup` from `binder.go`. -/
def ResourceTable.lookup (rt : ResourceTable) (ref : ResourceRef) :
    Option ResourceDecl :=
  if ref.aliasName ≠ "" then lookupAssoc rt.byAlias ref.aliasName
  else lookupAssoc rt.byPath (ref.resourceType ++ ":" ++ ref.path)

/-- `binder.Binder`: resource table, policy table, accumulated errors. -/
structure Binder where
  resources : ResourceTable
  policies : List (String × PolicyInfo)
  errors : List String

/-- `binder.New()`. -/
def Binder.new : Binder := ⟨⟨[], []⟩, [], []⟩

/-- `Binder.addError` from `binder.go` (`pos: msg`). -/
def Binder.addError (b : Binder) (pos : Position) (msg : String) : Binder :=
  { b with errors := b.errors ++ [pos.str ++ ": " ++ msg] }

/-- `PolicyTable.Add` from `binder.go` (duplicate policy name is an error). -/
def Binder.polAdd (b : Binder) (pos : Position) (name : String)
    (params : List String) (body : List Statement) : Binder :=
  match lookupAssoc b.policies name with
  | some existing =>
      b.addError pos ("duplicate policy: " ++ name ++ " (first declared at " ++
        existing.position.str ++ ")")
  | none =>
      { b with policies := insertAssoc b.policies name ⟨pos, name, params, body⟩ }

/-- Registration of a `ResourceDecl` (first pass of `Binder.Bind`). -/
def Binder.resAdd (b : Binder) (d : ResourceDecl) : Binder :=
  match b.resources.add d with
  | (rt, none) => { b with resources := rt }
  | (rt, some msg) => Binder.addError { b with resources := rt } d.position msg

/-- `Binder.validateResourceRef`: only alias references are checked. -/
def Binder.validateResourceRef (b : Binder) (ref : Option ResourceRef) : Binder :=
  match ref with
  | none => b
  | some r =>
      if r.aliasName ≠ "" then
        match b.resources.lookup r with
        | none => b.addError r.position ("undefined resource alias: " ++ r.aliasName)
        | some _ => b
      else b

/-- `Binder.validateHandler`: a no-op in the source. -/
def Binder.validateHandler (b : Binder) (_h : HandlerSpec) (_cond : String) :
    Binder := b

/-- `Binder.bindEnsureStmt`: a subject-less ensure inherits the current
implicit-subject slot (error when the slot is empty and the statement is
dropped); an explicit subject is validated and becomes the new slot value. -/
def Binder.bindEnsureStmt (b : Binder) (last : Option ResourceRef)
    (e : EnsureStmt) : Binder × Option ResourceRef × Option EnsureStmt :=
  match e.subject with
  | none =>
      match last with
      | none =>
          (b.addError e.position
            "ensure statement has no subject and no implicit subject available",
           last, none)
      | some s =>
          let e1 := { e with subject := some s }
          let b1 := match e1.handler with
            | some h => b.validateHandler h e1.condition
            | none => b
          (b1, last, some e1)
  | some subj =>
      let b1 := b.validateResourceRef (some subj)
      let b2 := match e.handler with
        | some h => b1.validateHandler h e.condition
        | none => b1
      (b2, some subj, some e)

/-- `Binder.bindApplyStmt`: the referenced policy must exist and the
argument count must match; otherwise an error is recorded and the
statement is dropped. -/
def Binder.bindApplyStmt (b : Binder) (_current : Option ResourceRef)
    (pos : Position) (name : String) (args : List String) :
    Binder × Option Statement :=
  match lookupAssoc b.policies name with
  | none => (b.addError pos ("undefined policy: " ++ name), none)
  | some info =>
      if args.length ≠ info.params.length then
        (b.addError pos ("policy " ++ name ++ " expects " ++
          toString info.params.length ++ " arguments, got " ++
          toString args.length), none)
      else (b, some (.applyStmt pos name args))

mutual

/-- `Binder.bindStatement` from `binder.go`: dispatch on the statement
form, threading the implicit-subject slot. -/
def bindStatement (b : Binder) (last : Option ResourceRef) :
    Statement → Binder × Option ResourceRef × Option Statement
  | .resourceDecl d => (b, last, some (.resourceDecl d))
  | .ensure e =>
      match b.bindEnsureStmt last e with
      | (b1, last1, oe) => (b1, last1, oe.map .ensure)
  | .onBlock p subj body => bindOnBlock b last p subj body
  | .policyDecl p n ps body => (b, last, some (.policyDecl p n ps body))
  | .applyStmt p n args =>
      match b.bindApplyStmt last p n args with
      | (b1, os) => (b1, last, os)
  | .forEach p it cont body =>
      let b1 := b.validateResourceRef cont
      match bindEachFresh b1 body with
      | (b2, body1) => (b2, last, some (.forEach p it cont body1))
  | .invariantBlock p body =>
      match bindEachFresh b body with
      | (b1, body1) => (b1, last, some (.invariantBlock p body1))
  | .onViolationBlock p h => (b, last, some (.onViolationBlock p h))
  | .assumeStmt p g s => (b, last, some (.assumeStmt p g s))
  | .parallelBlock p body =>
      match bindEachFresh b body with
      | (b1, body1) => (b1, last, some (.parallelBlock p body1))

/-- `Binder.bindOnBlock`: the block's subject is validated, written into
the OUTER implicit-subject slot, and used as the initial slot for the
block's own statements.  Inside the block only ensure and apply
statements are bound; other statement forms pass through unchanged. -/
def bindOnBlock (b : Binder) (_last : Option ResourceRef) (p : Position)
    (subj : Option ResourceRef) (body : List Statement) :
    Binder × Option ResourceRef × Option Statement :=
  let b1 := b.validateResourceRef subj
  match bindOnBlockBody b1 subj body with
  | (b2, body1) => (b2, subj, some (.onBlock p subj body1))

/-- Inner statement loop of `Binder.bindOnBlock`, threading the local
`blockSubject` variable. -/
def bindOnBlockBody (b : Binder) (blockSubject : Option ResourceRef) :
    List Statement → Binder × List Statement
  | [] => (b, [])
  | .ensure e :: rest =>
      let e1 := match e.subject with
        | none => { e with subject := blockSubject }
        | some _ => e
      match b.bindEnsureStmt blockSubject e1 with
      | (b1, blockSubject1, oe) =>
          match bindOnBlockBody b1 blockSubject1 rest with
          | (b2, rest1) =>
              (b2, (oe.map Statement.ensure).toList ++ rest1)
  | .applyStmt ap an aargs :: rest =>
      match b.bindApplyStmt blockSubject ap an aargs with
      | (b1, os) =>
          match bindOnBlockBody b1 blockSubject rest with
          | (b2, rest1) => (b2, os.toList ++ rest1)
  | s :: rest =>
      match bindOnBlockBody b blockSubject rest with
      | (b1, rest1) => (b1, s :: rest1)

/-- Per-statement binding with a fresh empty implicit-subject slot, as in
`bindForEachStmt`, `bindInvariantBlock` and `bindParallelBlock`. -/
def bindEachFresh (b : Binder) : List Statement → Binder × List Statement
  | [] => (b, [])
  | s :: rest =>
      match bindStatement b none s with
      | (b1, _, os) =>
          match bindEachFresh b1 rest with
          | (b2, rest1) => (b2, os.toList ++ rest1)

/-- Second pass of `Binder.Bind`: bind top-level statements in order,
threading the implicit-subject slot, dropping statements the binder
rejected. -/
def bindStatements (b : Binder) (last : Option ResourceRef) :
    List Statement → Binder × Option ResourceRef × List Statement
  | [] => (b, last, [])
  | s :: rest =>
      match bindStatement b last s with
      | (b1, last1, os) =>
          match bindStatements b1 last1 rest with
          | (b2, last2, rest1) => (b2, last2, os.toList ++ rest1)

end

/-- `Binder.Bind` from `binder.go`: registration pass over top-level
resource and policy declarations, then the resolution pass. -/
def Binder.bind (b : Binder) (stmts : List Statement) :
    Binder × List Statement :=
  let b1 := stmts.foldl (fun b s =>
    match s with
    | .resourceDecl d => b.resAdd d
    | .policyDecl p n ps body => b.polAdd p n ps body
    | _ => b) b
  match bindStatements b1 none stmts with
  | (b2, _, out) => (b2, out)

/-- `Binder.expandApply` from `binder.go`: inline a policy body at an
apply site, substituting handler-argument values that name a policy
parameter with the caller's argument string.  Only `EnsureStmt`s in the
policy body are expanded; the clone copies condition, guard and requires,
sets the subject to the enclosing block's subject and the position to the
apply statement's position. -/
def Binder.expandApply (b : Binder) (pos : Position) (name : String)
    (args : List String) (subject : Option ResourceRef) : List Statement :=
  match lookupAssoc b.policies name with
  | none => []
  | some info =>
      let params := (info.params.zip args).foldl
        (fun m kv => insertAssoc m kv.1 kv.2) []
      info.statements.filterMap (fun s =>
        match s with
        | .ensure e =>
            let handler1 := e.handler.map (fun h =>
              { position := h.position, name := h.name,
                args := h.args.map (fun kv =>
                  match lookupAssoc params kv.2 with
                  | some subst => (kv.1, subst)
                  | none => kv) : HandlerSpec })
            some (.ensure
              { position := pos, condition := e.condition, subject := subject,
                handler := handler1, guard := e.guard, requires := e.requires,
                requiresResource := [], after := [], before := [],
                violationHandler := none })
        | _ => none)

/-- `Binder.expandOnBlock`: replace each apply statement in an on-block
with the policy expansion. -/
def Binder.expandOnBlock (b : Binder) (subject : Option ResourceRef) :
    List Statement → List Statement
  | [] => []
  | .applyStmt p n args :: rest =>
      b.expandApply p n args subject ++ b.expandOnBlock subject rest
  | s :: rest => s :: b.expandOnBlock subject rest

/-- `Binder.ExpandPolicies`: apply statements inside top-level on-blocks
are replaced by their policy expansions; everything else is unchanged. -/
def Binder.expandPolicies (b : Binder) (stmts : List Statement) :
    List Statement :=
  stmts.map (fun s =>
    match s with
    | .onBlock p subj body => .onBlock p subj (b.expandOnBlock subj body)
    | other => other)

/-- `imply.ConditionMeta` from `pkg/imply/imply.go`. -/
structure ConditionMeta where
  name : String
  applicableTypes : List String
  implies : List String
  conflicts : List String
  defaultHandler : String
deriving DecidableEq

/-- The built-in condition registry from `imply.go`
(`Registry.registerBuiltins`), as an association list keyed by condition
name. -/
def conditionRegistry : List (String × ConditionMeta) :=
  [("exists", ⟨"exists", ["file", "directory"], [], [], "fs.native"⟩),
   ("readable", ⟨"readable", ["file"], ["exists"], [], "fs.native"⟩),
   ("writable", ⟨"writable", ["file"], ["exists"], [], "fs.native"⟩),
   ("encrypted", ⟨"encrypted", ["file"], ["exists", "readable", "writable"],
      ["unencrypted"], "AES:256"⟩),
   ("unencrypted", ⟨"unencrypted", ["file"], ["exists"], ["encrypted"], ""⟩),
   ("permissions", ⟨"permissions", ["file", "directory"], ["exists"], [], "posix"⟩),
   ("checksum", ⟨"checksum", ["file"], ["exists", "readable"], [], "fs.native"⟩),
   ("content", ⟨"content", ["file"], ["exists"], [], "fs.native"⟩),
   ("running", ⟨"running", ["process", "service"], [], ["stopped"], "process.native"⟩),
   ("stopped", ⟨"stopped", ["process", "service"], [], ["running"], "process.native"⟩),
   ("listening", ⟨"listening", ["service"], ["running"], [], "service.native"⟩),
   ("healthy", ⟨"healthy", ["service"], ["running"], [], "service.native"⟩),
   ("reachable", ⟨"reachable", ["http"], [], [], "http.get"⟩),
   ("status_code", ⟨"status_code", ["http"], ["reachable"], [], "http.get"⟩),
   ("tls", ⟨"tls", ["http"], ["reachable"], [], "http.get"⟩),
   ("scheduled", ⟨"scheduled", ["cron"], [], [], "cron.native"⟩),
   ("backed_up", ⟨"backed_up", ["file", "database"], ["exists"], [], "backup.native"⟩),
   ("stable", ⟨"stable", ["database"], [], [], "db.native"⟩)]

/-- `Registry.Get` from `imply.go`. -/
def registryGet (name : String) : Option ConditionMeta :=
  lookupAssoc conditionRegistry name

/-- Depth of a condition's implication chain in the registry (0 for
conditions that imply nothing and for unknown conditions). -/
def condRank (c : String) : Nat :=
  if c = "encrypted" ∨ c = "checksum" then 2
  else if c = "readable" ∨ c = "writable" ∨ c = "unencrypted" ∨
          c = "permissions" ∨ c = "content" ∨ c = "listening" ∨
          c = "healthy" ∨ c = "status_code" ∨ c = "tls" ∨ c = "backed_up" then 1
  else 0

/-- The implied statement synthesized in `Expander.expandEnsure`: same
position, subject and guard as the original, the implied condition, and no
other fields (in particular no marker that it was implied). -/
def mkImpliedStmt (stmt : EnsureStmt) (implied : String) : EnsureStmt :=
  { position := stmt.position, condition := implied, subject := stmt.subject,
    handler := none, guard := stmt.guard, requires := [],
    requiresResource := [], after := [], before := [],
    violationHandler := none }

/-- `Expander.expandEnsure` from `imply.go`: unknown conditions pass
through; a subject whose resource type is outside `applicableTypes` records
an error; each implied condition is synthesized and recursively expanded,
the implied statements preceding the original.  The Go recursion is
bounded by the static registry (see `conditionRegistry_rank`); the `fuel`
argument makes that bound explicit. -/
def expandEnsure : Nat → List String → EnsureStmt → List String × List Statement
  | 0, errs, stmt => (errs, [.ensure stmt])
  | fuel + 1, errs, stmt =>
      match registryGet stmt.condition with
      | none => (errs, [.ensure stmt])
      | some meta =>
          let errs1 := match stmt.subject with
            | some subj =>
                if subj.resourceType ≠ "" ∧
                    ¬ meta.applicableTypes.contains subj.resourceType then
                  errs ++ [stmt.position.str ++ ": condition '" ++
                    stmt.condition ++ "' is not applicable to resource type '" ++
                    subj.resourceType ++ "'"]
                else errs
            | none => errs
          let r := meta.implies.foldl
            (fun (acc : List String × List Statement) c =>
              match expandEnsure fuel acc.1 (mkImpliedStmt stmt c) with
              | (e1, out1) => (e1, acc.2 ++ out1))
            (errs1, [])
          (r.1, r.2 ++ [.ensure stmt])

mutual

/-- `Expander.expandStatement` from `imply.go`. -/
def expandStatement (errs : List String) :
    Statement → List String × List Statement
  | .ensure e => expandEnsure 4 errs e
  | .onBlock p s body =>
      match expandStatementList errs body with
      | (errs1, body1) => (errs1, [.onBlock p s body1])
  | .invariantBlock p body =>
      match expandStatementList errs body with
      | (errs1, body1) => (errs1, [.invariantBlock p body1])
  | .forEach p it cont body =>
      match expandStatementList errs body with
      | (errs1, body1) => (errs1, [.forEach p it cont body1])
  | .parallelBlock p body =>
      match expandStatementList errs body with
      | (errs1, body1) => (errs1, [.parallelBlock p body1])
  | s => (errs, [s])

/-- Statement-list expansion, concatenating per-statement expansions. -/
def expandStatementList (errs : List String) :
    List Statement → List String × List Statement
  | [] => (errs, [])
  | s :: rest =>
      match expandStatement errs s with
      | (errs1, out1) =>
          match expandStatementList errs1 rest with
          | (errs2, out2) => (errs2, out1 ++ out2)

end

/-- `Expander.statementKey` from `imply.go`: `condition:subject` for an
ensure statement with a subject, the bare condition without one, and the
empty string for every other statement form. -/
def statementKey : Statement → String
  | .ensure e =>
      match e.subject with
      | some s => e.condition ++ ":" ++ s.str
      | none => e.condition
  | _ => ""

/-- `Expander.deduplicate` from `imply.go`: keep a statement when its key
is empty or unseen; record nonempty keys as seen (the Go
`key == "" || !seen[key]` guard plus the `key != ""` insert is written as
nested ifs).  Note this runs over the TOP-LEVEL statement list only —
on-blocks have key `""` and their interior statements are never
deduplicated. -/
def deduplicate (seen : List String) : List Statement → List Statement
  | [] => []
  | s :: rest =>
      if statementKey s = "" then s :: deduplicate seen rest
      else if seen.contains (statementKey s) then deduplicate seen rest
      else s :: deduplicate (statementKey s :: seen) rest

/-- `Expander.Expand` from `imply.go`: expand every top-level statement,
then deduplicate the resulting top-level list. -/
def expanderExpand (stmts : List Statement) : List String × List Statement :=
  match expandStatementList [] stmts with
  | (errs, out) => (errs, deduplicate [] out)

/-- Subject key of an ensure statement in `imply.go` (`Subject.String()`,
or the empty string for a missing subject). -/
def subjectKeyOf (e : EnsureStmt) : String :=
  match e.subject with
  | some s => s.str
  | none => ""

mutual

/-- One statement's contribution to `Expander.collectEnsures`. -/
def collectStmtEnsures (m : List (String × List EnsureStmt)) :
    Statement → List (String × List EnsureStmt)
  | .ensure e =>
      let key := subjectKeyOf e
      match lookupAssoc m key with
      | some es => insertAssoc m key (es ++ [e])
      | none => insertAssoc m key [e]
  | .onBlock _ _ body => collectEnsures m body
  | .invariantBlock _ body => collectEnsures m body
  | .forEach _ _ _ body => collectEnsures m body
  | .parallelBlock _ body => collectEnsures m body
  | _ => m

/-- `Expander.collectEnsures` from `imply.go`: group every ensure
statement (at any nesting depth) by subject string. -/
def collectEnsures (m : List (String × List EnsureStmt)) :
    List Statement → List (String × List EnsureStmt)
  | [] => m
  | s :: rest => collectEnsures (collectStmtEnsures m s) rest

end

/-- `Expander.CheckConflicts` from `imply.go`: per subject, walk the
ensure statements recording each condition's position; a condition whose
registry `conflicts` entry was already recorded produces a conflict
message citing both positions. -/
def checkConflicts (stmts : List Statement) : List String :=
  let bySubject := collectEnsures [] stmts
  bySubject.foldl (fun acc grp =>
    (grp.2.foldl (fun (st : List (String × Position) × List String) e =>
      let conditions := insertAssoc st.1 e.condition e.position
      let msgs := match registryGet e.condition with
        | none => st.2
        | some meta => meta.conflicts.foldl (fun msgs c =>
            match lookupAssoc conditions c with
            | some pos => msgs ++ [e.position.str ++ ": '" ++ e.condition ++
                "' conflicts with '" ++ c ++ "' on " ++ grp.1 ++
                " (declared at " ++ pos.str ++ ")"]
            | none => msgs) st.2
      (conditions, msgs)) ([], acc)).2) []

/-- `graph.Guarantee` from `pkg/graph/graph.go`.  `isImplied` mirrors the
Go field `IsImplied`, which no code path ever assigns. -/
structure Guarantee where
  id : String
  statement : EnsureStmt
  priority : Int
  isImplied : Bool
deriving DecidableEq

/-- `graph.Edge` (field `Type` is embedded as `kind`). -/
structure Edge where
  fromId : String
  toId : String
  kind : String
deriving DecidableEq

/-- `graph.Graph`: the `Nodes` map is embedded as a list in insertion
order with unique ids (`insertNode` reproduces the map's overwrite
semantics); `Invariants` is a list of ids with set semantics. -/
structure Graph where
  nodes : List Guarantee
  edges : List Edge
  invariants : List String
deriving DecidableEq

/-- `stmt.Subject.String()` with the Go nil-pointer convention: the empty
string for a missing subject. -/
def subjectStr (stmt : EnsureStmt) : String :=
  match stmt.subject with
  | some s => s.str
  | none => ""

/-- `Graph.generateID`: `condition:subject@position`. -/
def generateID (stmt : EnsureStmt) : String :=
  stmt.condition ++ ":" ++ subjectStr stmt ++ "@" ++ stmt.position.str

/-- Map write `g.Nodes[id] = guarantee`: overwrite the binding with the
same id, else append. -/
def insertNode : List Guarantee → Guarantee → List Guarantee
  | [], g => [g]
  | h :: rest, g => if h.id = g.id then g :: rest else h :: insertNode rest g

/-- `Graph.findGuaranteeByCondition`: first node (in the given map
iteration order) whose statement has the condition and subject string. -/
def findGuaranteeByCondition (ns : List Guarantee) (condition : String)
    (subject : Option ResourceRef) : Option String :=
  let subjStr := match subject with
    | some s => s.str
    | none => ""
  (ns.find? (fun g =>
    g.statement.condition == condition && subjectStr g.statement == subjStr)).map
    Guarantee.id

/-- `Graph.findGuaranteesByResource`: ids of all nodes whose subject string
equals the reference's string, in the given map iteration order. -/
def findGuaranteesByResource (ns : List Guarantee) (ref : ResourceRef) :
    List String :=
  (ns.filter (fun g => subjectStr g.statement == ref.str)).map Guarantee.id

/-- `Graph.addGuarantee` from `graph.go`: insert the node (note:
`IsImplied` is left at its zero value `false`), record invariant
membership, then add `requires`, `after` and `before` edges found by
scanning the node map in iteration order `scan`. -/
def addGuarantee (scan : List Guarantee → List Guarantee) (g : Graph)
    (stmt : EnsureStmt) (isInvariant : Bool) (priority : Int) : Graph :=
  let id := generateID stmt
  let nodes1 := insertNode g.nodes ⟨id, stmt, priority, false⟩
  let inv1 :=
    if isInvariant then
      if g.invariants.contains id then g.invariants else g.invariants ++ [id]
    else g.invariants
  let e1 := stmt.requires.foldl (fun es req =>
    match findGuaranteeByCondition (scan nodes1) req stmt.subject with
    | some reqId => es ++ [⟨reqId, id, "requires"⟩]
    | none => es) g.edges
  let e2 := stmt.after.foldl (fun es a =>
    es ++ (findGuaranteesByResource (scan nodes1) a).map
      (fun aid => (⟨aid, id, "after"⟩ : Edge))) e1
  let e3 := stmt.before.foldl (fun es bf =>
    es ++ (findGuaranteesByResource (scan nodes1) bf).map
      (fun bid => (⟨id, bid, "before"⟩ : Edge))) e2
  ⟨nodes1, e3, inv1⟩

mutual

/-- `Graph.processStatement` from `graph.go`. -/
def processStatement (scan : List Guarantee → List Guarantee) (g : Graph)
    (isInvariant : Bool) (basePriority : Int) : Statement → Graph
  | .ensure e => addGuarantee scan g e isInvariant basePriority
  | .onBlock _ _ body => buildFromStatements scan g isInvariant basePriority body
  | .invariantBlock _ body =>
      buildFromStatements scan g true (basePriority + 1000) body
  | .forEach _ _ _ body => buildFromStatements scan g isInvariant basePriority body
  | .parallelBlock _ body => buildFromStatements scan g isInvariant basePriority body
  | _ => g

/-- `Graph.buildFromStatements` from `graph.go`. -/
def buildFromStatements (scan : List Guarantee → List Guarantee) (g : Graph)
    (isInvariant : Bool) (basePriority : Int) : List Statement → Graph
  | [] => g
  | s :: rest =>
      buildFromStatements scan (processStatement scan g isInvariant basePriority s)
        isInvariant basePriority rest

end

/-- The built-in implication table internal to the graph stage
(`buildImplicitEdges` in `graph.go`). -/
def impliedByTable : List (String × List String) :=
  [("encrypted", ["exists", "readable", "writable"]),
   ("permissions", ["exists"]),
   ("readable", ["exists"]),
   ("writable", ["exists"]),
   ("checksum", ["exists", "readable"]),
   ("content", ["exists"]),
   ("listening", ["running"]),
   ("healthy", ["running"]),
   ("status_code", ["reachable"]),
   ("tls", ["reachable"]),
   ("backed_up", ["exists"])]

/-- Append to a subject group (`bySubject[subject] = append(...)`). -/
def appendGroup (m : List (String × List Guarantee)) (k : String)
    (g : Guarantee) : List (String × List Guarantee) :=
  match lookupAssoc m k with
  | some gs => insertAssoc m k (gs ++ [g])
  | none => insertAssoc m k [g]

/-- `Graph.buildImplicitEdges` from `graph.go`: group nodes by subject
(iterating the node map in order `scan`), build a condition-to-id map per
subject (later nodes overwrite earlier ones with the same condition), and
add an `implies` edge from each implied condition present to the implying
node. -/
def buildImplicitEdges (scan : List Guarantee → List Guarantee) (g : Graph) :
    Graph :=
  let groups := (scan g.nodes).foldl
    (fun m gg => appendGroup m (subjectStr gg.statement) gg) []
  let newEdges := groups.foldl (fun es grp =>
    let conditionToID := grp.2.foldl
      (fun m gg => insertAssoc m gg.statement.condition gg.id) []
    grp.2.foldl (fun es gg =>
      match lookupAssoc impliedByTable gg.statement.condition with
      | none => es
      | some implies => implies.foldl (fun es c =>
          match lookupAssoc conditionToID c with
          | some impliedID => es ++ [(⟨impliedID, gg.id, "implies"⟩ : Edge)]
          | none => es) es) es) g.edges
  { g with edges := newEdges }

/-- `graph.Build`: walk the program, then add implication edges.  `scan`
models the Go map iteration order: it is applied to the node list at every
point where the source ranges over the `Nodes` map (`id` reproduces
insertion order; any permutation-producing function is a legal schedule). -/
def Build (scan : List Guarantee → List Guarantee) (stmts : List Statement) :
    Graph :=
  buildImplicitEdges scan (buildFromStatements scan ⟨[], [], []⟩ false 0 stmts)

/-- Byte-wise lexicographic string comparison, as Go's `<` on strings.
Defined over the character list so that it reduces in the kernel (the
library's `String` order is defined by well-founded recursion and does
not). -/
def charsLE : List Char → List Char → Bool
  | [], _ => true
  | _ :: _, [] => false
  | a :: as, b :: bs =>
      if a.toNat = b.toNat then charsLE as bs
      else decide (a.toNat < b.toNat)

/-- Go string `≤` (byte-wise lexicographic; ASCII bytes coincide with code
points). -/
def goStrLE (a b : String) : Bool :=
  charsLE a.data b.data

/-- The frontier ordering of `TopoSort` (`sortQueue` in `graph.go`):
priority descending, then id ascending.  This is the reflexive closure of
the strict `less` used by Go's `sort.Slice`; with pairwise-distinct ids it
determines the same unique sorted order. -/
def qLE (a b : Guarantee) : Prop :=
  b.priority < a.priority ∨ (a.priority = b.priority ∧ goStrLE a.id b.id = true)

instance : DecidableRel qLE := fun _ _ =>
  inferInstanceAs (Decidable (_ ∨ _))

/-- Unfolding equation of `charsLE` on two cons cells. -/
theorem charsLE_cons_cons (a b : Char) (as bs : List Char) :
    charsLE (a :: as) (b :: bs) =
      if a.toNat = b.toNat then charsLE as bs else decide (a.toNat < b.toNat) :=
  rfl

/-- `charsLE` is total. -/
theorem charsLE_total : ∀ a b : List Char, charsLE a b = true ∨ charsLE b a = true
  | [], _ => Or.inl rfl
  | _ :: _, [] => Or.inr rfl
  | a :: as, b :: bs => by
      rw [charsLE_cons_cons, charsLE_cons_cons]
      by_cases h : a.toNat = b.toNat
      · rw [if_pos h, if_pos h.symm]
        exact charsLE_total as bs
      · have h' : ¬ b.toNat = a.toNat := fun hc => h hc.symm
        rw [if_neg h, if_neg h']
        rcases Nat.lt_or_ge a.toNat b.toNat with h2 | h2
        · exact Or.inl (by simpa using h2)
        · exact Or.inr (by simpa using lt_of_le_of_ne h2 h')

/-- `charsLE` is transitive. -/
theorem charsLE_trans : ∀ a b c : List Char,
    charsLE a b = true → charsLE b c = true → charsLE a c = true
  | [], _, _, _, _ => rfl
  | _ :: _, [], _, h, _ => by simp [charsLE] at h
  | _ :: _, _ :: _, [], _, h => by simp [charsLE] at h
  | a :: as, b :: bs, c :: cs, h1, h2 => by
      rw [charsLE_cons_cons] at h1 h2 ⊢
      by_cases hab : a.toNat = b.toNat <;> by_cases hbc : b.toNat = c.toNat
      · rw [if_pos hab] at h1
        rw [if_pos hbc] at h2
        rw [if_pos (hab.trans hbc)]
        exact charsLE_trans as bs cs h1 h2
      · rw [if_pos hab] at h1
        rw [if_neg hbc] at h2
        have hblt : b.toNat < c.toNat := by simpa using h2
        have hac : a.toNat < c.toNat := by rw [hab]; exact hblt
        rw [if_neg (Nat.ne_of_lt hac)]
        simpa using hac
      · rw [if_neg hab] at h1
        have halt : a.toNat < b.toNat := by simpa using h1
        have hac : a.toNat < c.toNat := by rw [← hbc]; exact halt
        rw [if_neg (Nat.ne_of_lt hac)]
        simpa using hac
      · rw [if_neg hab] at h1
        rw [if_neg hbc] at h2
        have halt : a.toNat < b.toNat := by simpa using h1
        have hblt : b.toNat < c.toNat := by simpa using h2
        have hac : a.toNat < c.toNat := halt.trans hblt
        rw [if_neg (Nat.ne_of_lt hac)]
        simpa using hac

/-- `charsLE` is antisymmetric. -/
theorem charsLE_antisymm : ∀ a b : List Char,
    charsLE a b = true → charsLE b a = true → a = b
  | [], [], _, _ => rfl
  | [], _ :: _, _, h => by simp [charsLE] at h
  | _ :: _, [], h, _ => by simp [charsLE] at h
  | a :: as, b :: bs, h1, h2 => by
      rw [charsLE_cons_cons] at h1 h2
      by_cases hab : a.toNat = b.toNat
      · have ha : a = b := Char.ext (UInt32.ext hab)
        rw [if_pos hab] at h1
        rw [if_pos hab.symm] at h2
        rw [ha, charsLE_antisymm as bs h1 h2]
      · have hba : ¬ b.toNat = a.toNat := fun hc => hab hc.symm
        rw [if_neg hab] at h1
        rw [if_neg hba] at h2
        have l1 : a.toNat < b.toNat := by simpa using h1
        have l2 : b.toNat < a.toNat := by simpa using h2
        exact absurd (l1.trans l2) (lt_irrefl _)

/-- `goStrLE` is antisymmetric. -/
theorem goStrLE_antisymm {a b : String}
    (h1 : goStrLE a b = true) (h2 : goStrLE b a = true) : a = b := by
  cases a with
  | mk da =>
      cases b with
      | mk db => exact congrArg String.mk (charsLE_antisymm da db h1 h2)

instance : IsTotal Guarantee qLE where
  total a b := by
    rcases lt_trichotomy a.priority b.priority with h | h | h
    · exact Or.inr (Or.inl h)
    · rcases charsLE_total a.id.data b.id.data with h2 | h2
      · exact Or.inl (Or.inr ⟨h, h2⟩)
      · exact Or.inr (Or.inr ⟨h.symm, h2⟩)
    · exact Or.inl (Or.inl h)

instance : IsTrans Guarantee qLE where
  trans a b c hab hbc := by
    rcases hab with h1 | ⟨h1, h1'⟩ <;> rcases hbc with h2 | ⟨h2, h2'⟩
    · exact Or.inl (h2.trans h1)
    · exact Or.inl (h2 ▸ h1)
    · exact Or.inl (h1 ▸ h2)
    · exact Or.inr ⟨h1.trans h2, charsLE_trans _ _ _ h1' h2'⟩

/-- `sortQueue` from `graph.go`, as a deterministic sort by the frontier
ordering. -/
def sortQueue (q : List Guarantee) : List Guarantee :=
  q.insertionSort qLE

/-- Adjacency list of a node: targets of its outgoing edges, in edge-list
order (matching the `adj` map built in `TopoSort`). -/
def adjOf (edges : List Edge) (u : String) : List String :=
  (edges.filter (fun e => e.fromId == u)).map Edge.toId

/-- Pointwise update of an in-degree function, modelling `m[k] += delta`
on a Go map with zero-value default. -/
def adjust (d : String → Int) (k : String) (delta : Int) : String → Int :=
  fun x => if x = k then d k + delta else d x

/-- Map read `g.Nodes[id]`. -/
def findNode (ns : List Guarantee) (id : String) : Option Guarantee :=
  ns.find? (fun g => g.id == id)

/-- The neighbor loop of `TopoSort`: decrement each successor's in-degree;
a successor reaching zero is appended to the queue, which is re-sorted
after every insertion. -/
def processAdj (ns : List Guarantee) :
    List String → List Guarantee → (String → Int) →
    List Guarantee × (String → Int)
  | [], q, d => (q, d)
  | v :: vs, q, d =>
      let d1 := adjust d v (-1)
      if d1 v = 0 then
        match findNode ns v with
        | some gv => processAdj ns vs (sortQueue (q ++ [gv])) d1
        | none => processAdj ns vs q d1
      else processAdj ns vs q d1

/-- The main loop of `TopoSort` (Kahn's algorithm): pop the head of the
sorted frontier, append it to the output, process its successors.  The Go
loop runs until the queue is empty; every node enters the queue at most
once, so `nodes.length + 1` fuel never exhausts before the queue does. -/
def topoLoop (ns : List Guarantee) (edges : List Edge) :
    Nat → List Guarantee → (String → Int) → List Guarantee → List Guarantee
  | 0, _, _, result => result
  | _ + 1, [], _, result => result
  | fuel + 1, node :: rest, d, result =>
      match processAdj ns (adjOf edges node.id) rest d with
      | (q1, d1) => topoLoop ns edges fuel q1 d1 (result ++ [node])

/-- The in-degree map built at the top of `TopoSort` (zero for every node,
then incremented along every edge). -/
def inDeg0 (edges : List Edge) : String → Int :=
  edges.foldl (fun d e => adjust d e.toId 1) (fun _ => 0)

/-- `Graph.TopoSort` from `graph.go`.  The initial frontier collects the
zero-in-degree nodes (the embedding iterates the node list; the sort makes
the map iteration order irrelevant, which is proved below).  Returns
`none` when the output misses nodes, i.e. on a cycle. -/
def TopoSort (ns : List Guarantee) (edges : List Edge) :
    Option (List Guarantee) :=
  let d0 := inDeg0 edges
  let queue0 := sortQueue (ns.filter (fun g => d0 g.id == 0))
  let result := topoLoop ns edges (ns.length + 1) queue0 d0 []
  if result.length = ns.length then some result else none

/-- The planner's default-handler table (`getDefaultHandler` in
`planner.go`). -/
def defaultHandlerTable : List (String × String) :=
  [("exists", "fs.native"), ("readable", "fs.native"), ("writable", "fs.native"),
   ("encrypted", "AES:256"), ("permissions", "posix"), ("checksum", "fs.native"),
   ("content", "fs.native"), ("running", "process.native"),
   ("stopped", "process.native"), ("listening", "service.native"),
   ("healthy", "service.native"), ("reachable", "http.get"),
   ("status_code", "http.get"), ("tls", "http.get"), ("scheduled", "cron.native"),
   ("backed_up", "backup.native"), ("stable", "db.native")]

/-- `Planner.getDefaultHandler`. -/
def getDefaultHandler (condition : String) : String :=
  (lookupAssoc defaultHandlerTable condition).getD ""

/-- `Planner.generateDescription`. -/
def generateDescription (stmt : EnsureStmt) : String :=
  "Ensure " ++ stmt.condition ++
  (match stmt.subject with
   | some s => " on " ++ s.str
   | none => "") ++
  (match stmt.handler with
   | some h => " with " ++ h.name
   | none => "")

/-- `planner.Step`. -/
structure Step where
  id : String
  guarantee : Guarantee
  description : String
  handler : String
  handlerArgs : List (String × String)
  isInvariant : Bool
deriving DecidableEq

/-- `planner.Plan`. -/
structure Plan where
  steps : List Step
  globalViolation : Option ViolationHandler
deriving DecidableEq

/-- `Planner.createStep`: the user's handler and arguments when present,
else the condition's default handler with empty arguments. -/
def createStep (g : Guarantee) (isInvariant : Bool) : Step :=
  match g.statement.handler with
  | some h =>
      ⟨g.id, g, generateDescription g.statement, h.name, h.args, isInvariant⟩
  | none =>
      ⟨g.id, g, generateDescription g.statement,
       getDefaultHandler g.statement.condition, [], isInvariant⟩

/-- `Planner.extractGlobalViolationHandler`: the first top-level
on-violation block. -/
def extractGlobalViolationHandler : List Statement → Option ViolationHandler
  | [] => none
  | .onViolationBlock _ h :: _ => some h
  | _ :: rest => extractGlobalViolationHandler rest

/-- `Planner.CreatePlan` from `planner.go`: topologically sort the graph
and emit one step per guarantee in order.  On a cycle Go returns a nil
plan with a non-nil error (whose message, built via `FindCycle`, is not
modelled); the embedding returns `none` in that case. -/
def CreatePlan (g : Graph) (prog : List Statement) : Option Plan :=
  match TopoSort g.nodes g.edges with
  | none => none
  | some sorted =>
      some ⟨sorted.map (fun gg => createStep gg (g.invariants.contains gg.id)),
            extractGlobalViolationHandler prog⟩

/-- The compilation pipeline after parsing, as run by `loadAndCompile` in
`cmd/ensura/main.go`: bind (errors abort), expand policies, expand
implications (errors abort), check conflicts (conflicts abort), build the
graph, create the plan.  `scan` is the Go map iteration order used by the
graph stage. -/
def compilePipeline (scan : List Guarantee → List Guarantee)
    (stmts : List Statement) : Option Plan :=
  match Binder.new.bind stmts with
  | (b1, bound) =>
      if b1.errors ≠ [] then none
      else
        let afterPolicies := b1.expandPolicies bound
        match expanderExpand afterPolicies with
        | (errs, expanded) =>
            if errs ≠ [] then none
            else if checkConflicts expanded ≠ [] then none
            else CreatePlan (Build scan expanded) expanded

/-- The JSON-compatible structure produced by `Plan.ToJSON` in
`planner.go`: per step the id, description, handler, args and invariant
flag, plus the optional global violation handler. -/
structure StepJSON where
  id : String
  description : String
  handler : String
  args : List (String × String)
  isInvariant : Bool
deriving DecidableEq

/-- The full `Plan.ToJSON` payload. -/
structure PlanJSON where
  steps : List StepJSON
  globalViolation : Option (Int × List String)
deriving DecidableEq

/-- `Plan.ToJSON`. -/
def planToJSON (p : Plan) : PlanJSON :=
  ⟨p.steps.map (fun s => ⟨s.id, s.description, s.handler, s.handlerArgs,
      s.isInvariant⟩),
   p.globalViolation.map (fun v => (v.retry, v.notify))⟩

/-- `runtime.StepStatus`. -/
inductive StepStatus where
  | pending
  | satisfied
  | violated
  | repaired
  | failed
deriving DecidableEq

/-- `runtime.HandlerResult`. -/
structure HandlerResult where
  success : Bool
  message : String
  error : Option String
deriving DecidableEq

/-- A handler's behaviour over one pass, modelling `runtime.Handler`: pure
check and enforce responses.  Holding the behaviour fixed models unchanged
external state. -/
structure Handler where
  check : Option ResourceRef → String → List (String × String) → HandlerResult
  enforce : Option ResourceRef → String → List (String × String) → HandlerResult

/-- The fields of `runtime.Config` consulted by `runOnce`/`executeStep`
(`Interval`, `CheckOnly`, `Redact` and the log sink do not influence a
single pass). -/
structure RunConfig where
  maxRetries : Int
  dryRun : Bool
deriving DecidableEq

/-- `runtime.StepResult` (timing fields are not modelled). -/
structure StepResult where
  step : Step
  status : StepStatus
  attempts : Nat
  message : String
  error : Option String
deriving DecidableEq

/-- `runtime.RunResult` (start/end times are not modelled). -/
structure RunResult where
  steps : List StepResult
  allSatisfied : Bool
  totalChecks : Nat
  totalRepairs : Nat
  totalFailures : Nat
deriving DecidableEq

/-- The retry loop of `Runtime.executeStep`: up to `maxRetries` attempts of
enforce-then-recheck; an enforce error is recorded and counts as a failed
attempt; a successful recheck yields `repaired`. -/
def repairLoop (h : Handler) (subject : Option ResourceRef) (cond : String)
    (args : List (String × String)) (maxRetries : Int) :
    Nat → Nat → StepResult → StepResult
  | 0, _, res =>
      { res with
          status := .failed
          message := "failed after " ++ toString maxRetries ++ " repair attempts" }
  | n + 1, attempt, res =>
      let res1 := { res with attempts := res.attempts + 1 }
      let er := h.enforce subject cond args
      match er.error with
      | some e => repairLoop h subject cond args maxRetries n (attempt + 1)
          { res1 with error := some e }
      | none =>
          let cr := h.check subject cond args
          if cr.success then
            { res1 with
                status := .repaired
                message := "repaired after " ++ toString (attempt + 1) ++ " attempts" }
          else repairLoop h subject cond args maxRetries n (attempt + 1) res1

/-- `Runtime.executeStep` from `runtime.go`: look up the handler (missing
handler fails the step), check; on success the step is satisfied; on
violation stop in dry-run mode, else resolve the effective retry budget
(per-statement violation handler, then the plan's global handler, then the
config default) and run the repair loop. -/
def executeStep (registry : List (String × Handler)) (cfg : RunConfig)
    (globalViolation : Option ViolationHandler) (step : Step) : StepResult :=
  let base : StepResult := ⟨step, .pending, 0, "", none⟩
  match lookupAssoc registry step.handler with
  | none =>
      { base with
          status := .failed
          error := some ("handler not found: " ++ step.handler) }
  | some h =>
      let subject := step.guarantee.statement.subject
      let cond := step.guarantee.statement.condition
      let args := step.handlerArgs
      let checkResult := h.check subject cond args
      let r1 := { base with attempts := 1 }
      if checkResult.success then
        { r1 with status := .satisfied, message := checkResult.message }
      else
        let r2 := { r1 with status := .violated, message := checkResult.message }
        if cfg.dryRun then r2
        else
          let fromStep : Option Int :=
            match step.guarantee.statement.violationHandler with
            | some vh => if vh.retry > 0 then some vh.retry else none
            | none => none
          let maxRetries : Int :=
            match fromStep with
            | some r => r
            | none =>
                match globalViolation with
                | some gv => if gv.retry > 0 then gv.retry else cfg.maxRetries
                | none => cfg.maxRetries
          repairLoop h subject cond args maxRetries maxRetries.toNat 0 r2

/-- The step loop of `Runtime.runOnce`: execute each step in plan order,
count checks/repairs/failures, clear the all-satisfied flag on a violated
or failed step, and return early (with `allSatisfied = false`) when the
cancellation context reports done after a step completes.  `ctxDone i`
models `ctx.Done()` being selectable at the check following step `i`. -/
def runOnceAux (registry : List (String × Handler)) (cfg : RunConfig)
    (gv : Option ViolationHandler) (ctxDone : Nat → Bool) :
    List Step → Nat → RunResult → Bool → RunResult
  | [], _, acc, allSat => { acc with allSatisfied := allSat }
  | st :: rest, idx, acc, allSat =>
      let sr := executeStep registry cfg gv st
      let acc1 := { acc with
                      steps := acc.steps ++ [sr]
                      totalChecks := acc.totalChecks + 1 }
      let next : RunResult × Bool :=
        match sr.status with
        | .satisfied => (acc1, allSat)
        | .repaired => ({ acc1 with totalRepairs := acc1.totalRepairs + 1 }, allSat)
        | .violated =>
            ({ acc1 with totalFailures := acc1.totalFailures + 1 }, false)
        | .failed =>
            ({ acc1 with totalFailures := acc1.totalFailures + 1 }, false)
        | .pending => (acc1, allSat)
      if ctxDone idx then { next.1 with allSatisfied := false }
      else runOnceAux registry cfg gv ctxDone rest (idx + 1) next.1 next.2

/-- `Runtime.runOnce` from `runtime.go`. -/
def runOnce (registry : List (String × Handler)) (cfg : RunConfig)
    (plan : Plan) (ctxDone : Nat → Bool) : RunResult :=
  runOnceAux registry cfg plan.globalViolation ctxDone plan.steps 0
    ⟨[], false, 0, 0, 0⟩ true

/-- Bytes of a Go string.  Characters in this development are ASCII, where
code points coincide with UTF-8 bytes. -/
def strBytes (s : String) : List Nat :=
  s.data.map Char.toNat

/-- `strings.HasPrefix`. -/
def goHasPre (s pre : String) : Bool :=
  pre.data.isPrefixOf s.data

/-- `strings.TrimPrefix`. -/
def goTrimPre (s pre : String) : String :=
  if goHasPre s pre then ⟨s.data.drop pre.data.length⟩ else s

/-- `aes.MagicHeader`: the 16-byte prefix `ENSURA_AES256_V1`. -/
def magicHeader : List Nat :=
  strBytes "ENSURA_AES256_V1"

/-- `resolveKey` from `pkg/adapters/aes/handler.go`.  `sha` abstracts Go's
`crypto/sha256` (external library); `env` models `os.Getenv` (the empty
string for an unset variable); `fsRead` models `os.ReadFile`.  An empty
reference errors; `env:NAME` reads the environment and errors on an empty
value; `file:path` reads the file and errors when unreadable; any other
string is used literally; in each success case the material is hashed. -/
def resolveKey (sha : List Nat → List Nat) (env : String → String)
    (fsRead : String → Option (List Nat)) (keyRef : String) :
    Except String (List Nat) :=
  if keyRef = "" then .error "key reference is empty"
  else if goHasPre keyRef "env:" then
    let envVar := goTrimPre keyRef "env:"
    let value := env envVar
    if value = "" then
      .error ("environment variable " ++ envVar ++ " is not set")
    else .ok (sha (strBytes value))
  else if goHasPre keyRef "file:" then
    match fsRead (goTrimPre keyRef "file:") with
    | none => .error "failed to read key file"
    | some data => .ok (sha data)
  else .ok (sha (strBytes keyRef))

/-- `Handler.checkEncrypted` from the AES handler: success iff the file is
readable and its first 16 bytes equal the magic header. -/
def checkEncrypted (fsRead : String → Option (List Nat)) (path : String) :
    HandlerResult :=
  match fsRead path with
  | none => ⟨false, "", some ("open " ++ path ++ ": error")⟩
  | some data =>
      let header := data.take magicHeader.length
      if header.length = magicHeader.length ∧ header = magicHeader then
        ⟨true, path ++ " is encrypted", none⟩
      else ⟨false, path ++ " is not encrypted", none⟩

/-- `Handler.enforceEncrypted` from the AES handler: resolve the key
FIRST, then read the file; if the contents already begin with the magic
header return success without writing; otherwise encrypt (`encryptFn`
abstracts `encrypt`, whose random nonce makes it a parameter) and write
header-plus-ciphertext back.  Returns the result together with the
filesystem after the call. -/
def enforceEncrypted (sha : List Nat → List Nat)
    (encryptFn : List Nat → List Nat → List Nat) (env : String → String)
    (fsRead : String → Option (List Nat)) (path keyRef : String) :
    HandlerResult × (String → Option (List Nat)) :=
  match resolveKey sha env fsRead keyRef with
  | .error e => (⟨false, "", some ("failed to resolve key: " ++ e)⟩, fsRead)
  | .ok key =>
      match fsRead path with
      | none => (⟨false, "", some ("read " ++ path ++ ": error")⟩, fsRead)
      | some data =>
          if magicHeader.isPrefixOf data then
            (⟨true, path ++ " is already encrypted", none⟩, fsRead)
          else
            let output := magicHeader ++ encryptFn data key
            (⟨true, "encrypted " ++ path, none⟩,
             fun p => if p = path then some output else fsRead p)

/-- `Handler.Enforce` of the AES handler: nil subject and conditions other
than `encrypted` are errors; otherwise enforce encryption on the subject's
path with the `key` argument (Go's zero-value read of a missing map key
yields `""`). -/
def aesEnforce (sha : List Nat → List Nat)
    (encryptFn : List Nat → List Nat → List Nat) (env : String → String)
    (fsRead : String → Option (List Nat)) (subject : Option ResourceRef)
    (condition : String) (args : List (String × String)) :
    HandlerResult × (String → Option (List Nat)) :=
  match subject with
  | none => (⟨false, "", some "no subject specified"⟩, fsRead)
  | some subj =>
      if condition = "encrypted" then
        enforceEncrypted sha encryptFn env fsRead subj.path
          ((lookupAssoc args "key").getD "")
      else (⟨false, "", some ("cannot enforce condition: " ++ condition)⟩, fsRead)

/-! ### Specification vocabulary for the graph stage -/

/-- The id list of a node list. -/
def ids (l : List Guarantee) : List String := l.map Guarantee.id

/-- Number of edges into `v` whose source has not been processed yet. -/
def countInto (edges : List Edge) (processed : List String) (v : String) : Nat :=
  (edges.filter (fun e => decide (e.toId = v ∧ e.fromId ∉ processed))).length

/-- Number of edges from `u` to `v`. -/
def occInto (edges : List Edge) (u v : String) : Nat :=
  (edges.filter (fun e => decide (e.fromId = u ∧ e.toId = v))).length

/-- One dependency step: an edge from `a` to `b`. -/
def EdgeStep (edges : List Edge) (a b : String) : Prop :=
  ∃ e ∈ edges, e.fromId = a ∧ e.toId = b

/-- A directed cycle in the edge list: a nonempty chain of edges from some
node back to itself. -/
def HasCycle (edges : List Edge) : Prop :=
  ∃ a c, List.Chain (EdgeStep edges) a (c ++ [a])

/-- Both endpoints of every edge are node ids, as holds for every graph
the pipeline builds (edges are only created between looked-up node ids). -/
def EdgesWF (ns : List Guarantee) (edges : List Edge) : Prop :=
  ∀ e ∈ edges, e.fromId ∈ ids ns ∧ e.toId ∈ ids ns

/-- Loop invariant of `topoLoop`: output and frontier are nodes with
pairwise distinct ids; the in-degree function counts edges from
unprocessed sources; the frontier is exactly the sorted list of
unprocessed in-degree-zero nodes; every edge into an output node comes
from an earlier output node. -/
structure KInv (ns : List Guarantee) (edges : List Edge)
    (queue : List Guarantee) (d : String → Int) (result : List Guarantee) :
    Prop where
  resSub : ∀ g ∈ result, g ∈ ns
  qSub : ∀ g ∈ queue, g ∈ ns
  nodupRQ : (ids result ++ ids queue).Nodup
  deg : ∀ v, d v = (countInto edges (ids result) v : Int)
  ready : ∀ g ∈ ns, (g ∈ queue ↔ (g.id ∉ ids result ∧ d g.id = 0))
  sortedQ : queue.Sorted qLE
  orderInv : ∀ e ∈ edges, e.toId ∈ ids result →
      ∃ l₁ g l₂, result = l₁ ++ g :: l₂ ∧ g.id = e.toId ∧ e.fromId ∈ ids l₁

/-- State of `topoLoop`'s output once the frontier has drained. -/
structure KFinal (ns : List Guarantee) (edges : List Edge)
    (res : List Guarantee) : Prop where
  sub : ∀ g ∈ res, g ∈ ns
  nodup : (ids res).Nodup
  orderInv : ∀ e ∈ edges, e.toId ∈ ids res →
      ∃ l₁ g l₂, res = l₁ ++ g :: l₂ ∧ g.id = e.toId ∧ e.fromId ∈ ids l₁
  stuck : ∀ g ∈ ns, g ∉ res → countInto edges (ids res) g.id ≠ 0

/-! ### Concrete inputs

Programs transcribed to post-parse ASTs (what `parser.ParseString`
produces), used to evaluate claims at concrete inputs. -/

/-- A position in an unnamed source file. -/
def mkPos (l c : Nat) : Position := ⟨"", l, c, 0⟩

/-- An inline `file "path"` resource reference. -/
def fileRef (l c : Nat) (p : String) : ResourceRef := ⟨mkPos l c, "file", p, ""⟩

/-- An ensure statement with only condition, subject and handler set. -/
def mkEnsure (l c : Nat) (cond : String) (subj : Option ResourceRef)
    (h : Option HandlerSpec) : EnsureStmt :=
  ⟨mkPos l c, cond, subj, h, none, [], [], [], [], none⟩

/-- The program of `TestDeduplication` in `imply_test.go`:
`on file "test.txt" { ensure exists; ensure encrypted with AES:256 key "env:KEY" }`. -/
def progDedup : List Statement :=
  [.onBlock (mkPos 1 1) (some (fileRef 1 4 "test.txt"))
    [.ensure (mkEnsure 2 3 "exists" none none),
     .ensure (mkEnsure 3 3 "encrypted" none
       (some ⟨mkPos 3 20, "AES:256", [("key", "env:KEY")]⟩))]]

/-- A well-formed program on which compilation output depends on Go map
iteration order: two statements with the same (condition, subject) at
different positions survive in-block deduplication, and a `requires`
clause resolves to whichever of them the node-map scan meets first.
Source: `on file "s" { ensure frobbed; ensure frobbed;
ensure exists requires frobbed }`. -/
def progNondet : List Statement :=
  [.onBlock (mkPos 1 1) (some (fileRef 1 4 "s"))
    [.ensure (mkEnsure 2 3 "frobbed" none none),
     .ensure (mkEnsure 3 3 "frobbed" none none),
     .ensure { mkEnsure 4 3 "exists" none none with requires := ["frobbed"] }]]

/-- The binder scope program: `ensure exists on file "x"`, then
`on file "y" { ensure readable }`, then a subject-less `ensure writable`. -/
def progBindLeak : List Statement :=
  [.ensure (mkEnsure 1 1 "exists" (some (fileRef 1 11 "x")) none),
   .onBlock (mkPos 2 1) (some (fileRef 2 4 "y"))
     [.ensure (mkEnsure 3 3 "readable" none none)],
   .ensure (mkEnsure 5 1 "writable" none none)]

/-- Scenario S1 of the spec:
`on file "s.db" { ensure encrypted with AES:256 key "env:K" }`.  The
`exists`, `readable` and `writable` steps of its plan exist only through
implication expansion. -/
def progS1 : List Statement :=
  [.onBlock (mkPos 1 1) (some (fileRef 1 4 "s.db"))
    [.ensure (mkEnsure 2 3 "encrypted" none
      (some ⟨mkPos 2 20, "AES:256", [("key", "env:K")]⟩))]]

/-- The nonempty dedup key of a top-level ensure statement, `none` for
other forms and for an empty key. -/
def ensureKey : Statement → Option String
  | .ensure e =>
      if statementKey (.ensure e) = "" then none
      else some (statementKey (.ensure e))
  | _ => none

/-- Nonempty dedup keys of the top-level ensure statements of a
deduplicated program. -/
def dedupKeys (stmts : List Statement) : List String :=
  (deduplicate [] stmts).filterMap ensureKey

/-- Two stand-alone guarantees for concrete topological-sort inputs. -/
def wg (id : String) (cond : String) : Guarantee :=
  ⟨id, mkEnsure 1 1 cond none none, 0, false⟩

/-- A two-node acyclic witness graph (`a` required before `b`). -/
def wGraphAcyclic : Graph :=
  ⟨[wg "a" "c1", wg "b" "c2"], [⟨"a", "b", "requires"⟩], []⟩

/-- A two-node cyclic witness graph. -/
def wGraphCyclic : Graph :=
  ⟨[wg "a" "c1", wg "b" "c2"],
   [⟨"a", "b", "requires"⟩, ⟨"b", "a", "after"⟩], []⟩

/-- The acyclic witness graph with its node map scanned in the other
order. -/
def wGraphAcyclicRev : Graph :=
  ⟨[wg "b" "c2", wg "a" "c1"], [⟨"a", "b", "requires"⟩], []⟩

/-- The plan `CreatePlan` emits for the acyclic witness graph. -/
def wPlanA : Plan :=
  ⟨[createStep (wg "a" "c1") false, createStep (wg "b" "c2") false], none⟩

/-! ### Theorems -/

/-- Every implication in the registry strictly lowers `condRank`, so the
recursion in `Expander.expandEnsure` has depth at most 3 and fuel 4 in
`expandStatement` is equivalent to the unbounded Go recursion. -/
theorem conditionRegistry_rank :
    ∀ p ∈ conditionRegistry, ∀ c ∈ p.2.implies, condRank c < condRank p.1 := by
  decide

/-- When the handler's own check fails and its behaviour is fixed, every
pass of the repair loop re-checks with the same result, so the loop ends in
`failed`, never `repaired`. -/
theorem repairLoop_status (h : Handler) (subject : Option ResourceRef)
    (cond : String) (args : List (String × String)) (m : Int)
    (hc : (h.check subject cond args).success = false) :
    ∀ (n attempt : Nat) (res : StepResult),
      (repairLoop h subject cond args m n attempt res).status = .failed := by
  intro n
  induction n with
  | zero => intro _ _; rfl
  | succ k ih =>
      intro attempt res
      simp only [repairLoop]
      cases he : (h.enforce subject cond args).error with
      | some e =>
          simp only [he]
          exact ih _ _
      | none =>
          simp only [he, hc, Bool.false_eq_true, if_false]
          exact ih _ _

/-- In the fixed-behaviour model a step is never `repaired`: either its
check succeeds (`satisfied`), or every re-check inside the repair loop
fails again. -/
theorem executeStep_not_repaired (registry : List (String × Handler))
    (cfg : RunConfig) (gv : Option ViolationHandler) (step : Step) :
    (executeStep registry cfg gv step).status ≠ .repaired := by
  unfold executeStep
  cases hl : lookupAssoc registry step.handler with
  | none => simp
  | some h =>
      by_cases hc : (h.check step.guarantee.statement.subject
          step.guarantee.statement.condition step.handlerArgs).success
      · simp [hc]
      · simp only [hc, Bool.false_eq_true, if_false]
        by_cases hd : cfg.dryRun
        · simp [hd]
        · simp only [hd, Bool.false_eq_true, if_false]
          rw [repairLoop_status h _ _ _ _ (by simpa using hc)]
          simp

/-- The step loop never counts a repair: no step result is `repaired`. -/
theorem runOnceAux_totalRepairs (registry : List (String × Handler))
    (cfg : RunConfig) (gv : Option ViolationHandler) (ctx : Nat → Bool) :
    ∀ (steps : List Step) (idx : Nat) (acc : RunResult) (aSat : Bool),
      (runOnceAux registry cfg gv ctx steps idx acc aSat).totalRepairs =
        acc.totalRepairs := by
  intro steps
  induction steps with
  | nil => intro idx acc aSat; rfl
  | cons st rest ih =>
      intro idx acc aSat
      unfold runOnceAux
      cases hs : (executeStep registry cfg gv st).status with
      | repaired => exact absurd hs (executeStep_not_repaired registry cfg gv st)
      | satisfied =>
          by_cases hd : ctx idx = true <;> simp [hs, hd, ih]
      | violated =>
          by_cases hd : ctx idx = true <;> simp [hs, hd, ih]
      | failed =>
          by_cases hd : ctx idx = true <;> simp [hs, hd, ih]
      | pending =>
          by_cases hd : ctx idx = true <;> simp [hs, hd, ih]

/-- Claim C7: a satisfied pass is idempotent.  With the handler behaviour
held fixed (unchanged external state), an immediately subsequent
`runOnce` is the same pure function application, so if the first pass
reports all-satisfied the next one does too — and it performs zero
repairs. -/
theorem runOnce_satisfied_idempotent (registry : List (String × Handler))
    (cfg : RunConfig) (plan : Plan) (ctx : Nat → Bool)
    (h : (runOnce registry cfg plan ctx).allSatisfied = true) :
    (runOnce registry cfg plan ctx).allSatisfied = true ∧
    (runOnce registry cfg plan ctx).totalRepairs = 0 :=
  ⟨h, runOnceAux_totalRepairs registry cfg plan.globalViolation ctx plan.steps 0 _ true⟩

/-- A handler whose check always succeeds, for concrete witnesses. -/
def okHandler : Handler :=
  ⟨fun _ _ _ => ⟨true, "ok", none⟩, fun _ _ _ => ⟨true, "ok", none⟩⟩

/-- A one-step plan over the acyclic witness graph, for concrete
witnesses. -/
def wPlan : Plan :=
  ⟨[⟨"a", wg "a" "c1", "d", "h1", [], false⟩], none⟩

/-- Witness for C7: a concrete satisfied pass, to which
`runOnce_satisfied_idempotent` applies with its hypothesis discharged by
computation. -/
theorem runOnce_satisfied_idempotent_witness :
    (runOnce [("h1", okHandler)] ⟨3, false⟩ wPlan (fun _ => false)).allSatisfied
        = true ∧
    (runOnce [("h1", okHandler)] ⟨3, false⟩ wPlan (fun _ => false)).totalRepairs
        = 0 :=
  runOnce_satisfied_idempotent [("h1", okHandler)] ⟨3, false⟩ wPlan
    (fun _ => false) (by decide)

/-- The step loop returns the partial result with `allSatisfied = false`
as soon as the context reports done after a step, regardless of the step
statuses so far. -/
theorem runOnceAux_cancelled (registry : List (String × Handler))
    (cfg : RunConfig) (gv : Option ViolationHandler) (ctx : Nat → Bool) :
    ∀ (steps : List Step) (k idx : Nat) (acc : RunResult) (aSat : Bool),
      k < steps.length → (∀ i, i < k → ctx (idx + i) = false) →
      ctx (idx + k) = true →
      (runOnceAux registry cfg gv ctx steps idx acc aSat).allSatisfied = false ∧
      (runOnceAux registry cfg gv ctx steps idx acc aSat).steps.length =
        acc.steps.length + (k + 1) := by
  intro steps
  induction steps with
  | nil => intro k idx acc aSat hk; exact absurd hk (by simp)
  | cons st rest ih =>
      intro k idx acc aSat hk hbefore hdone
      unfold runOnceAux
      cases k with
      | zero =>
          have hidx : ctx idx = true := by simpa using hdone
          rw [hidx]
          refine ⟨rfl, ?_⟩
          simp only [if_true]
          cases hs : (executeStep registry cfg gv st).status <;>
            simp [hs, List.length_append]
      | succ k' =>
          have hidx : ctx idx = false := by
            have := hbefore 0 (Nat.succ_pos k')
            simpa using this
          have h1 : ∀ i, i < k' → ctx (idx + 1 + i) = false := by
            intro i hi
            have := hbefore (i + 1) (by omega)
            have harith : idx + (i + 1) = idx + 1 + i := by omega
            rwa [harith] at this
          have h2 : ctx (idx + 1 + k') = true := by
            have harith : idx + (k' + 1) = idx + 1 + k' := by omega
            rwa [harith] at hdone
          have hk' : k' < rest.length := by
            simpa using Nat.lt_of_succ_lt_succ hk
          rw [hidx]
          simp only [Bool.false_eq_true, if_false]
          cases hs : (executeStep registry cfg gv st).status <;>
          · simp only [hs]
            refine ⟨(ih k' (idx + 1) _ _ hk' h1 h2).1, ?_⟩
            rw [(ih k' (idx + 1) _ _ hk' h1 h2).2]
            simp only [List.length_append, List.length_cons, List.length_nil]
            omega

/-- Claim C9: when the cancellation context is done at a step boundary,
`runOnce` returns immediately with the partial result and
`allSatisfied = false` — also when the step that just completed (even the
final one) was satisfied. -/
theorem runOnce_cancelled_partial (registry : List (String × Handler))
    (cfg : RunConfig) (plan : Plan) (ctx : Nat → Bool) (k : Nat)
    (hk : k < plan.steps.length)
    (hbefore : ∀ i, i < k → ctx i = false) (hdone : ctx k = true) :
    (runOnce registry cfg plan ctx).allSatisfied = false ∧
    (runOnce registry cfg plan ctx).steps.length = k + 1 := by
  have h := runOnceAux_cancelled registry cfg plan.globalViolation ctx
    plan.steps k 0 ⟨[], false, 0, 0, 0⟩ true hk
    (by intro i hi; simpa using hbefore i hi) (by simpa using hdone)
  exact ⟨h.1, by simpa using h.2⟩

/-- Witness for C9: a one-step plan whose single step is satisfied, with
the context done when it completes: the run is not reported
all-satisfied. -/
theorem runOnce_cancelled_partial_witness :
    (runOnce [("h1", okHandler)] ⟨3, false⟩ wPlan (fun _ => true)).allSatisfied
        = false ∧
    (runOnce [("h1", okHandler)] ⟨3, false⟩ wPlan (fun _ => true)).steps.length
        = 1 :=
  runOnce_cancelled_partial [("h1", okHandler)] ⟨3, false⟩ wPlan (fun _ => true)
    0 (by decide) (fun i hi => absurd hi (Nat.not_lt_zero i)) (by decide)

/-- A string prefixes its own append. -/
theorem goHasPre_append (pre rest : String) : goHasPre (pre ++ rest) pre = true := by
  show pre.data.isPrefixOf (pre ++ rest).data = true
  have h : (pre ++ rest).data = pre.data ++ rest.data := rfl
  rw [h, List.isPrefixOf_iff_prefix]
  exact List.prefix_append _ _

/-- `strings.TrimPrefix` inverts appending the prefix. -/
theorem goTrimPre_append (pre rest : String) : goTrimPre (pre ++ rest) pre = rest := by
  unfold goTrimPre
  rw [goHasPre_append, if_pos rfl]
  show (⟨(pre.data ++ rest.data).drop pre.data.length⟩ : String) = rest
  rw [List.drop_left]

/-- A string starting with `file:` does not start with `env:`. -/
theorem goHasPre_env_of_file (path : String) :
    goHasPre ("file:" ++ path) "env:" = false := by
  show ("env:".data).isPrefixOf (("file:" ++ path).data) = false
  have h : ("file:" ++ path).data = 'f' :: 'i' :: 'l' :: 'e' :: ':' :: path.data := rfl
  have hne : ('e' == 'f') = false := by decide
  rw [h]
  show (('e' == 'f') && _) = false
  rw [hne, Bool.false_and]

/-- Appending to a nonempty string is nonempty. -/
theorem env_append_ne_empty (name : String) : ("env:" ++ name) ≠ "" := by
  intro h
  have := congrArg String.data h
  simp only [show ("env:" ++ name).data = 'e' :: 'n' :: 'v' :: ':' :: name.data
    from rfl] at this
  exact absurd this (by simp)

/-- Appending to `file:` is nonempty. -/
theorem file_append_ne_empty (path : String) : ("file:" ++ path) ≠ "" := by
  intro h
  have := congrArg String.data h
  simp only [show ("file:" ++ path).data = 'f' :: 'i' :: 'l' :: 'e' :: ':' :: path.data
    from rfl] at this
  exact absurd this (by simp)

/-- Claim C8: key resolution.  An empty reference errors; `env:NAME`
resolves through the environment, erroring when the variable is unset
(read as the empty string); `file:path` resolves to the file bytes,
erroring when unreadable; any other nonempty string is used literally; in
every success case the resolved material is passed through SHA-256
(abstracted as `sha`) and, since a SHA-256 digest has 32 bytes, the
resulting key has 32 bytes. -/
theorem resolveKey_cases (sha : List Nat → List Nat) (env : String → String)
    (fs : String → Option (List Nat))
    (hsha : ∀ bs, (sha bs).length = 32) :
    (resolveKey sha env fs "" = .error "key reference is empty") ∧
    (∀ name, resolveKey sha env fs ("env:" ++ name) =
      if env name = "" then
        .error ("environment variable " ++ name ++ " is not set")
      else .ok (sha (strBytes (env name)))) ∧
    (∀ path, goHasPre ("file:" ++ path) "env:" = false →
      resolveKey sha env fs ("file:" ++ path) =
        match fs path with
        | none => .error "failed to read key file"
        | some data => .ok (sha data)) ∧
    (∀ keyRef, keyRef ≠ "" → goHasPre keyRef "env:" = false →
      goHasPre keyRef "file:" = false →
      resolveKey sha env fs keyRef = .ok (sha (strBytes keyRef))) ∧
    (∀ keyRef key, resolveKey sha env fs keyRef = .ok key → key.length = 32) := by
  refine ⟨rfl, ?_, ?_, ?_, ?_⟩
  · intro name
    unfold resolveKey
    rw [if_neg (env_append_ne_empty name), if_pos (goHasPre_append "env:" name),
      goTrimPre_append]
  · intro path hnot
    unfold resolveKey
    rw [if_neg (file_append_ne_empty path), hnot]
    simp only [Bool.false_eq_true, if_false]
    rw [if_pos (goHasPre_append "file:" path), goTrimPre_append]
  · intro keyRef h1 h2 h3
    unfold resolveKey
    rw [if_neg h1, h2, h3]
    simp
  · intro keyRef key h
    unfold resolveKey at h
    by_cases h1 : keyRef = ""
    · rw [if_pos h1] at h; exact absurd h (by simp)
    · rw [if_neg h1] at h
      by_cases h2 : goHasPre keyRef "env:" = true
      · rw [h2] at h
        simp only [if_true] at h
        by_cases h3 : env (goTrimPre keyRef "env:") = ""
        · rw [if_pos h3] at h; exact absurd h (by simp)
        · rw [if_neg h3] at h
          cases h
          exact hsha _
      · rw [Bool.not_eq_true] at h2
        rw [h2] at h
        simp only [Bool.false_eq_true, if_false] at h
        by_cases h3 : goHasPre keyRef "file:" = true
        · rw [h3] at h
          simp only [if_true] at h
          cases hf : fs (goTrimPre keyRef "file:") with
          | none => rw [hf] at h; exact absurd h (by simp)
          | some data =>
              rw [hf] at h
              cases h
              exact hsha _
        · rw [Bool.not_eq_true] at h3
          rw [h3] at h
          simp only [Bool.false_eq_true, if_false] at h
          cases h
          exact hsha _

/-- Witness for C8: concrete resolutions through all three reference
forms and both error paths, via `resolveKey_cases`. -/
theorem resolveKey_cases_witness :
    resolveKey (fun _ => List.replicate 32 0)
        (fun n => if n = "K" then "topsecret" else "") (fun _ => none)
        ("env:" ++ "K") = .ok (List.replicate 32 0) ∧
    resolveKey (fun _ => List.replicate 32 0)
        (fun n => if n = "K" then "topsecret" else "") (fun _ => none)
        "" = .error "key reference is empty" := by
  have h := resolveKey_cases (fun _ => List.replicate 32 0)
    (fun n => if n = "K" then "topsecret" else "") (fun _ => none)
    (fun _ => by simp)
  refine ⟨?_, h.1⟩
  have h2 := h.2.1 "K"
  simpa using h2

/-- Counterexample for C10: the AES handler resolves the key BEFORE the
already-encrypted check, so enforcing `encrypted` on a file that already
begins with the magic header fails (rather than succeeding) when the key
reference is empty or unresolvable. -/
theorem aes_enforce_counterexample :
    ((aesEnforce (fun _ => List.replicate 32 0) (fun d _ => d) (fun _ => "")
        (fun p => if p = "f" then some (magicHeader ++ [1]) else none)
        (some (fileRef 1 1 "f")) "encrypted" []).1).success = false := by
  decide

/-- Claim C10 (amended): provided the key reference resolves, if the
target file is readable and already begins with the 16-byte magic header,
Enforce returns success and leaves the filesystem untouched (no rewrite,
no double encryption). -/
theorem enforceEncrypted_noop_when_encrypted
    (sha : List Nat → List Nat) (encryptFn : List Nat → List Nat → List Nat)
    (env : String → String) (fs : String → Option (List Nat))
    (path keyRef : String) (key : List Nat) (rest : List Nat)
    (hkey : resolveKey sha env fs keyRef = .ok key)
    (hfile : fs path = some (magicHeader ++ rest)) :
    enforceEncrypted sha encryptFn env fs path keyRef =
      (⟨true, path ++ " is already encrypted", none⟩, fs) := by
  unfold enforceEncrypted
  rw [hkey, hfile]
  have hpre : magicHeader.isPrefixOf (magicHeader ++ rest) = true := by
    rw [List.isPrefixOf_iff_prefix]
    exact List.prefix_append _ _
  simp [hpre]

/-- Witness for C10's amended theorem: a literal key reference and an
already-encrypted file. -/
theorem enforceEncrypted_noop_witness :
    enforceEncrypted (fun _ => List.replicate 32 0) (fun d _ => d)
        (fun _ => "")
        (fun p => if p = "f" then some (magicHeader ++ [1]) else none)
        "f" "literal-key" =
      (⟨true, "f" ++ " is already encrypted", none⟩,
       fun p => if p = "f" then some (magicHeader ++ [1]) else none) :=
  enforceEncrypted_noop_when_encrypted _ _ _ _ "f" "literal-key"
    (List.replicate 32 0) [1] rfl (by decide)

/-- Counterexample for C4: in the program of `TestDeduplication` the
explicit `ensure exists` and the `exists` implied by `encrypted` sit
inside an on-block, whose statements `Expander.deduplicate` never reaches
(the block's own key is empty), so the compiled plan contains TWO steps
for the pair (`exists`, `file "test.txt"`). -/
theorem dedup_onblock_counterexample :
    (compilePipeline id progDedup).map (fun plan =>
      (plan.steps.filter (fun s =>
        s.guarantee.statement.condition == "exists" &&
        subjectStr s.guarantee.statement == "file \"test.txt\"")).length) =
    some 2 := by
  decide

/-- Dedup-loop invariant: the nonempty keys of the kept ensure statements
are pairwise distinct and disjoint from the seen set. -/
theorem deduplicate_spec : ∀ (stmts : List Statement) (seen : List String),
    ((deduplicate seen stmts).filterMap ensureKey).Nodup ∧
    ∀ k ∈ (deduplicate seen stmts).filterMap ensureKey,
      seen.contains k = false := by
  intro stmts
  induction stmts with
  | nil => intro seen; exact ⟨List.nodup_nil, by simp [deduplicate]⟩
  | cons s rest ih =>
      intro seen
      cases s with
      | ensure e =>
          by_cases hk : statementKey (.ensure e) = ""
          · simp only [deduplicate]
            rw [if_pos hk, List.filterMap_cons]
            simp only [ensureKey, if_pos hk]
            exact ih seen
          · by_cases hseen : seen.contains (statementKey (.ensure e)) = true
            · simp only [deduplicate]
              rw [if_neg hk, if_pos hseen]
              exact ih seen
            · simp only [deduplicate]
              rw [if_neg hk, if_neg hseen, List.filterMap_cons]
              simp only [ensureKey, if_neg hk]
              obtain ⟨ihn, ihd⟩ := ih (statementKey (.ensure e) :: seen)
              refine ⟨List.Nodup.cons ?_ ihn, ?_⟩
              · intro hmem
                have hc := ihd _ hmem
                rw [List.contains_cons] at hc
                have hbeq := (Bool.or_eq_false_iff.mp hc).1
                rw [beq_eq_false_iff_ne] at hbeq
                exact hbeq rfl
              · intro k hkmem
                rcases List.mem_cons.mp hkmem with hkeq | hkin
                · subst hkeq
                  exact Bool.not_eq_true _ ▸ (Bool.eq_false_iff.mpr hseen)
                · have hc := ihd _ hkin
                  rw [List.contains_cons] at hc
                  exact (Bool.or_eq_false_iff.mp hc).2
      | resourceDecl d =>
          have hd : deduplicate seen (Statement.resourceDecl d :: rest) =
              Statement.resourceDecl d :: deduplicate seen rest := rfl
          rw [hd, List.filterMap_cons]
          exact ih seen
      | onBlock p subj body =>
          have hd : deduplicate seen (Statement.onBlock p subj body :: rest) =
              Statement.onBlock p subj body :: deduplicate seen rest := rfl
          rw [hd, List.filterMap_cons]
          exact ih seen
      | policyDecl p n ps body =>
          have hd : deduplicate seen (Statement.policyDecl p n ps body :: rest) =
              Statement.policyDecl p n ps body :: deduplicate seen rest := rfl
          rw [hd, List.filterMap_cons]
          exact ih seen
      | applyStmt p n args =>
          have hd : deduplicate seen (Statement.applyStmt p n args :: rest) =
              Statement.applyStmt p n args :: deduplicate seen rest := rfl
          rw [hd, List.filterMap_cons]
          exact ih seen
      | forEach p it cont body =>
          have hd : deduplicate seen (Statement.forEach p it cont body :: rest) =
              Statement.forEach p it cont body :: deduplicate seen rest := rfl
          rw [hd, List.filterMap_cons]
          exact ih seen
      | invariantBlock p body =>
          have hd : deduplicate seen (Statement.invariantBlock p body :: rest) =
              Statement.invariantBlock p body :: deduplicate seen rest := rfl
          rw [hd, List.filterMap_cons]
          exact ih seen
      | onViolationBlock p h =>
          have hd : deduplicate seen (Statement.onViolationBlock p h :: rest) =
              Statement.onViolationBlock p h :: deduplicate seen rest := rfl
          rw [hd, List.filterMap_cons]
          exact ih seen
      | assumeStmt p g simple =>
          have hd : deduplicate seen (Statement.assumeStmt p g simple :: rest) =
              Statement.assumeStmt p g simple :: deduplicate seen rest := rfl
          rw [hd, List.filterMap_cons]
          exact ih seen
      | parallelBlock p body =>
          have hd : deduplicate seen (Statement.parallelBlock p body :: rest) =
              Statement.parallelBlock p body :: deduplicate seen rest := rfl
          rw [hd, List.filterMap_cons]
          exact ih seen

/-- Claim C4 (amended): deduplication does hold for the TOP-LEVEL
statement list: among the top-level ensure statements that survive
`Expander.deduplicate`, the nonempty `condition:subject` keys are
pairwise distinct.  Statements inside on-blocks are not deduplicated
(the counterexample), so the plan-wide claim fails. -/
theorem deduplicate_toplevel_unique (stmts : List Statement) :
    (dedupKeys stmts).Nodup :=
  (deduplicate_spec stmts []).1

/-- Membership in a node-map insert. -/
theorem mem_insertNode : ∀ (l : List Guarantee) (g x : Guarantee),
    x ∈ insertNode l g → x ∈ l ∨ x = g := by
  intro l
  induction l with
  | nil =>
      intro g x hx
      simp only [insertNode, List.mem_singleton] at hx
      exact Or.inr hx
  | cons h rest ih =>
      intro g x hx
      by_cases he : h.id = g.id
      · simp only [insertNode, if_pos he] at hx
        rcases List.mem_cons.mp hx with h1 | h1
        · exact Or.inr h1
        · exact Or.inl (List.mem_cons_of_mem _ h1)
      · simp only [insertNode, if_neg he] at hx
        rcases List.mem_cons.mp hx with h1 | h1
        · exact Or.inl (h1 ▸ List.mem_cons_self _ _)
        · rcases ih g x h1 with h2 | h2
          · exact Or.inl (List.mem_cons_of_mem _ h2)
          · exact Or.inr h2

/-- `addGuarantee` only ever inserts nodes with `isImplied = false`. -/
theorem addGuarantee_isImplied (scan : List Guarantee → List Guarantee)
    (g : Graph) (stmt : EnsureStmt) (inv : Bool) (pr : Int)
    (h : ∀ x ∈ g.nodes, x.isImplied = false) :
    ∀ x ∈ (addGuarantee scan g stmt inv pr).nodes, x.isImplied = false := by
  intro x hx
  have hx1 : x ∈ insertNode g.nodes ⟨generateID stmt, stmt, pr, false⟩ := hx
  rcases mem_insertNode _ _ _ hx1 with h1 | h1
  · exact h x h1
  · rw [h1]

mutual

/-- `processStatement` preserves the all-nodes-unimplied invariant. -/
theorem processStatement_isImplied (scan : List Guarantee → List Guarantee)
    (g : Graph) (inv : Bool) (pr : Int) (s : Statement)
    (h : ∀ x ∈ g.nodes, x.isImplied = false) :
    ∀ x ∈ (processStatement scan g inv pr s).nodes, x.isImplied = false := by
  cases s with
  | ensure e => exact addGuarantee_isImplied scan g e inv pr h
  | onBlock p subj body => exact buildFromStatements_isImplied scan g inv pr body h
  | invariantBlock p body =>
      exact buildFromStatements_isImplied scan g true (pr + 1000) body h
  | forEach p it cont body =>
      exact buildFromStatements_isImplied scan g inv pr body h
  | parallelBlock p body => exact buildFromStatements_isImplied scan g inv pr body h
  | resourceDecl d => exact h
  | policyDecl p n ps body => exact h
  | applyStmt p n args => exact h
  | onViolationBlock p vh => exact h
  | assumeStmt p gu simple => exact h

/-- `buildFromStatements` preserves the all-nodes-unimplied invariant. -/
theorem buildFromStatements_isImplied (scan : List Guarantee → List Guarantee)
    (g : Graph) (inv : Bool) (pr : Int) (stmts : List Statement)
    (h : ∀ x ∈ g.nodes, x.isImplied = false) :
    ∀ x ∈ (buildFromStatements scan g inv pr stmts).nodes, x.isImplied = false := by
  cases stmts with
  | nil => exact h
  | cons s rest =>
      exact buildFromStatements_isImplied scan _ inv pr rest
        (processStatement_isImplied scan g inv pr s h)

end

/-- Claim C5 (the code): no code path ever sets `Guarantee.IsImplied`:
every node of every built graph carries `isImplied = false`, including
those synthesized by implication expansion (the S1 program's `exists`,
`readable` and `writable` steps), while `cmd/ensura` reads the field to
print an `[IMPLIED]` marker and `ast.EnsureStmt` has no implied flag at
all. -/
theorem build_isImplied_never_true :
    (∀ (scan : List Guarantee → List Guarantee) (stmts : List Statement),
      ∀ x ∈ (Build scan stmts).nodes, x.isImplied = false) ∧
    (compilePipeline id progS1).map (fun plan => plan.steps.map (fun s =>
      (s.guarantee.statement.condition, s.guarantee.isImplied))) =
      some [("exists", false), ("readable", false), ("writable", false),
            ("encrypted", false)] := by
  constructor
  · intro scan stmts x hx
    have hx1 : x ∈ (buildFromStatements scan ⟨[], [], []⟩ false 0 stmts).nodes := hx
    exact buildFromStatements_isImplied scan ⟨[], [], []⟩ false 0 stmts
      (by intro y hy; exact absurd hy (List.not_mem_nil y)) x hx1
  · decide

/-- Counterexample for C6: after `on file "y" { … }`, the top-level
subject-less `ensure writable` is bound to the BLOCK's subject
`file "y"`, not to `file "x"`, the last subject seen before the block
(`bindOnBlock` writes the block subject into the outer slot); binding
reports no error. -/
theorem bind_onblock_subject_leak :
    (Binder.new.bind progBindLeak).2.map (fun s =>
      match s with
      | .ensure e => subjectStr e
      | _ => "BLOCK") = ["file \"x\"", "BLOCK", "file \"y\""] ∧
    (Binder.new.bind progBindLeak).1.errors = [] ∧
    ("file \"y\"" : String) ≠ "file \"x\"" := by
  refine ⟨by decide, by decide, by decide⟩

/-- Claim C6 (amended): an OnBlock overwrites the outer implicit-subject
slot with its own subject, and a subject-less ensure statement bound with
that slot inherits it — so a subject-less ensure following an on-block
receives the block's subject. -/
theorem bind_onblock_slot_inherit (b : Binder) (last : Option ResourceRef)
    (p : Position) (subj : Option ResourceRef) (body : List Statement)
    (r : ResourceRef) (e : EnsureStmt) (he : e.subject = none) :
    (bindOnBlock b last p subj body).2.1 = subj ∧
    (b.bindEnsureStmt (some r) e).2.2 = some { e with subject := some r } ∧
    (b.bindEnsureStmt (some r) e).2.1 = some r := by
  refine ⟨?_, ?_, ?_⟩
  · unfold bindOnBlock
    cases hb : bindOnBlockBody (b.validateResourceRef subj) subj body with
    | mk b2 body1 => rfl
  · cases hh : e.handler <;>
      simp [Binder.bindEnsureStmt, he, hh, Binder.validateHandler]
  · cases hh : e.handler <;>
      simp [Binder.bindEnsureStmt, he, hh, Binder.validateHandler]

/-- Witness for C6's amended theorem at a concrete block and statement. -/
theorem bind_onblock_slot_inherit_witness :
    (bindOnBlock Binder.new none (mkPos 2 1) (some (fileRef 2 4 "y"))
        [Statement.ensure (mkEnsure 3 3 "readable" none none)]).2.1 =
      some (fileRef 2 4 "y") ∧
    (Binder.new.bindEnsureStmt (some (fileRef 2 4 "y"))
        (mkEnsure 5 1 "writable" none none)).2.2 =
      some { mkEnsure 5 1 "writable" none none with subject := some (fileRef 2 4 "y") } ∧
    (Binder.new.bindEnsureStmt (some (fileRef 2 4 "y"))
        (mkEnsure 5 1 "writable" none none)).2.1 = some (fileRef 2 4 "y") :=
  bind_onblock_slot_inherit Binder.new none (mkPos 2 1) (some (fileRef 2 4 "y"))
    [Statement.ensure (mkEnsure 3 3 "readable" none none)] (fileRef 2 4 "y")
    (mkEnsure 5 1 "writable" none none) rfl

/-! ### Topological-sort machinery -/

/-- `adjust` at the adjusted key. -/
theorem adjust_self (d : String → Int) (k : String) (δ : Int) :
    adjust d k δ k = d k + δ := by
  simp [adjust]

/-- `adjust` elsewhere. -/
theorem adjust_other (d : String → Int) (k x : String) (δ : Int) (h : x ≠ k) :
    adjust d k δ x = d x := by
  simp [adjust, h]

/-- Unfolding `countInto` on a cons cell. -/
theorem countInto_cons (e : Edge) (es : List Edge) (P : List String) (v : String) :
    countInto (e :: es) P v =
      countInto es P v + if e.toId = v ∧ e.fromId ∉ P then 1 else 0 := by
  unfold countInto
  rw [List.filter_cons]
  by_cases h : e.toId = v ∧ e.fromId ∉ P
  · rw [if_pos (by simpa using h), if_pos h, List.length_cons]
  · rw [if_neg (by simpa using h), if_neg h]
    omega

/-- Unfolding `occInto` on a cons cell. -/
theorem occInto_cons (e : Edge) (es : List Edge) (u v : String) :
    occInto (e :: es) u v =
      occInto es u v + if e.fromId = u ∧ e.toId = v then 1 else 0 := by
  unfold occInto
  rw [List.filter_cons]
  by_cases h : e.fromId = u ∧ e.toId = v
  · rw [if_pos (by simpa using h), if_pos h, List.length_cons]
  · rw [if_neg (by simpa using h), if_neg h]
    omega

/-- The in-degree fold of `TopoSort` counts the edges into each id. -/
theorem inDeg0_foldl (edges : List Edge) : ∀ (d : String → Int) (v : String),
    (edges.foldl (fun d e => adjust d e.toId 1) d) v =
      d v + (countInto edges [] v : Int) := by
  induction edges with
  | nil =>
      intro d v
      simp [countInto]
  | cons e es ih =>
      intro d v
      rw [List.foldl_cons, ih, countInto_cons]
      by_cases h : e.toId = v
      · rw [h, adjust_self]
        have hc : (v = v ∧ e.fromId ∉ ([] : List String)) := ⟨rfl, by simp⟩
        rw [if_pos hc]
        push_cast
        ring
      · rw [adjust_other d e.toId v 1 (Ne.symm h)]
        have hc : ¬ (e.toId = v ∧ e.fromId ∉ ([] : List String)) :=
          fun hc => h hc.1
        rw [if_neg hc]
        push_cast
        ring

/-- `inDeg0` equals the spec count over an empty processed set. -/
theorem inDeg0_eq (edges : List Edge) (v : String) :
    inDeg0 edges v = (countInto edges [] v : Int) := by
  have h := inDeg0_foldl edges (fun _ => 0) v
  simpa [inDeg0] using h

/-- Removing a freshly processed source splits the in-count. -/
theorem countInto_split (edges : List Edge) (P : List String) (u : String)
    (hu : u ∉ P) (v : String) :
    countInto edges P v = countInto edges (P ++ [u]) v + occInto edges u v := by
  induction edges with
  | nil => rfl
  | cons e es ih =>
      rw [countInto_cons, countInto_cons, occInto_cons, ih]
      by_cases h1 : e.toId = v
      · by_cases h2 : e.fromId = u
        · have hmemP : e.fromId ∉ P := h2 ▸ hu
          have hmemPu : e.fromId ∈ P ++ [u] := by simp [h2]
          have hc1 : ¬ (e.toId = v ∧ e.fromId ∉ P ++ [u]) := fun hc => hc.2 hmemPu
          rw [if_pos ⟨h1, hmemP⟩, if_neg hc1, if_pos ⟨h2, h1⟩]
          omega
        · by_cases h3 : e.fromId ∈ P
          · have hin : e.fromId ∈ P ++ [u] := by simp [h3]
            have hc1 : ¬ (e.toId = v ∧ e.fromId ∉ P) := fun hc => hc.2 h3
            have hc2 : ¬ (e.toId = v ∧ e.fromId ∉ P ++ [u]) := fun hc => hc.2 hin
            have hc3 : ¬ (e.fromId = u ∧ e.toId = v) := fun hc => h2 hc.1
            rw [if_neg hc1, if_neg hc2, if_neg hc3]
            omega
          · have hnotin : e.fromId ∉ P ++ [u] := by simp [h3, h2]
            have hc3 : ¬ (e.fromId = u ∧ e.toId = v) := fun hc => h2 hc.1
            rw [if_pos ⟨h1, h3⟩, if_pos ⟨h1, hnotin⟩, if_neg hc3]
            omega
      · have hc1 : ¬ (e.toId = v ∧ e.fromId ∉ P) := fun hc => h1 hc.1
        have hc2 : ¬ (e.toId = v ∧ e.fromId ∉ P ++ [u]) := fun hc => h1 hc.1
        have hc3 : ¬ (e.fromId = u ∧ e.toId = v) := fun hc => h1 hc.2
        rw [if_neg hc1, if_neg hc2, if_neg hc3]
        omega

/-- The adjacency list's occurrence count equals the edge count. -/
theorem adjOf_count (edges : List Edge) (u v : String) :
    (adjOf edges u).count v = occInto edges u v := by
  induction edges with
  | nil => rfl
  | cons e es ih =>
      rw [occInto_cons]
      show ((List.filter (fun e => e.fromId == u) (e :: es)).map Edge.toId).count v = _
      rw [List.filter_cons]
      by_cases h1 : e.fromId = u
      · rw [if_pos (by simpa using h1), List.map_cons, List.count_cons]
        by_cases h2 : e.toId = v
        · have hp : e.fromId = u ∧ e.toId = v := ⟨h1, h2⟩
          rw [if_pos hp]
          have hb : (e.toId == v) = true := beq_iff_eq.mpr h2
          rw [hb]
          simp only [if_true]
          have := ih
          unfold adjOf at this
          omega
        · have hc : ¬ (e.fromId = u ∧ e.toId = v) := fun hc => h2 hc.2
          rw [if_neg hc]
          have hb : (e.toId == v) = false := beq_eq_false_iff_ne.mpr h2
          rw [hb]
          simp only [Bool.false_eq_true, if_false]
          have := ih
          unfold adjOf at this
          omega
      · have hc : ¬ (e.fromId = u ∧ e.toId = v) := fun hc => h1 hc.1
        rw [if_neg (by simpa using h1), if_neg hc]
        have := ih
        unfold adjOf at this
        omega

/-- A found node is a member with the looked-up id. -/
theorem findNode_some (ns : List Guarantee) (v : String) (g : Guarantee)
    (h : findNode ns v = some g) : g ∈ ns ∧ g.id = v := by
  unfold findNode at h
  refine ⟨List.mem_of_find?_eq_some h, ?_⟩
  have hp := List.find?_some h
  simpa using hp

/-- Every id in the node list is found. -/
theorem findNode_isSome (ns : List Guarantee) (v : String) (h : v ∈ ids ns) :
    ∃ g, findNode ns v = some g := by
  obtain ⟨g, hg, hid⟩ := List.mem_map.mp h
  have hs : (List.find? (fun g => g.id == v) ns).isSome :=
    List.find?_isSome.mpr ⟨g, hg, by simpa using hid⟩
  exact Option.isSome_iff_exists.mp hs

/-- Nodes with equal ids are equal when the id list has no duplicates. -/
theorem nodup_ids_inj {ns : List Guarantee} (hn : (ids ns).Nodup)
    {a b : Guarantee} (ha : a ∈ ns) (hb : b ∈ ns) (hid : a.id = b.id) : a = b :=
  List.inj_on_of_nodup_map hn ha hb hid

/-- `sortQueue` permutes its input. -/
theorem sortQueue_perm (q : List Guarantee) : (sortQueue q).Perm q :=
  List.perm_insertionSort qLE q

/-- `sortQueue` sorts by the frontier order. -/
theorem sortQueue_sorted (q : List Guarantee) : (sortQueue q).Sorted qLE :=
  List.sorted_insertionSort qLE q

/-- Membership in `sortQueue`. -/
theorem mem_sortQueue {q : List Guarantee} {g : Guarantee} :
    g ∈ sortQueue q ↔ g ∈ q :=
  (sortQueue_perm q).mem_iff

/-- `qLE` is reflexive. -/
theorem qLE_refl (a : Guarantee) : qLE a a :=
  (IsTotal.total a a).elim id id

/-- Mutually `qLE`-comparable guarantees share an id. -/
theorem qLE_antisymm_id {a b : Guarantee} (h1 : qLE a b) (h2 : qLE b a) :
    a.id = b.id := by
  rcases h1 with h1 | ⟨h1, h1'⟩ <;> rcases h2 with h2 | ⟨h2, h2'⟩
  · exact absurd (h1.trans h2) (lt_irrefl _)
  · exact absurd h1 (h2 ▸ lt_irrefl _)
  · exact absurd h2 (h1 ▸ lt_irrefl _)
  · exact goStrLE_antisymm h1' h2'

/-- Two sorted permutations with duplicate-free ids are equal. -/
theorem sorted_nodup_eq : ∀ {l₁ l₂ : List Guarantee}, l₁.Perm l₂ →
    l₁.Sorted qLE → l₂.Sorted qLE → (ids l₁).Nodup → l₁ = l₂ := by
  intro l₁
  induction l₁ with
  | nil =>
      intro l₂ hp _ _ _
      exact (hp.nil_eq).symm ▸ rfl
  | cons a t₁ ih =>
      intro l₂ hp hs₁ hs₂ hn
      cases l₂ with
      | nil => exact absurd hp.symm.nil_eq (by simp)
      | cons b t₂ =>
          have hab : a = b := by
            have hbmem : b ∈ a :: t₁ := hp.mem_iff.mpr (List.mem_cons_self b t₂)
            have hamem : a ∈ b :: t₂ := hp.mem_iff.mp (List.mem_cons_self a t₁)
            rcases List.mem_cons.mp hbmem with hba | hbt
            · exact hba.symm
            · rcases List.mem_cons.mp hamem with hba | hat
              · exact hba
              · have h1 : qLE a b := (List.pairwise_cons.mp hs₁).1 b hbt
                have h2 : qLE b a := (List.pairwise_cons.mp hs₂).1 a hat
                exact nodup_ids_inj hn (List.mem_cons_self a t₁) hbmem
                  (qLE_antisymm_id h1 h2)
          subst hab
          have ht : t₁ = t₂ := ih hp.cons_inv (List.Sorted.of_cons hs₁)
            (List.Sorted.of_cons hs₂) (by
              have : (ids (a :: t₁)).Nodup := hn
              rw [show ids (a :: t₁) = a.id :: ids t₁ from rfl] at this
              exact this.of_cons)
          rw [ht]

/-- `countInto` only depends on the edge multiset. -/
theorem countInto_perm {es₁ es₂ : List Edge} (hp : es₂.Perm es₁)
    (P : List String) (v : String) :
    countInto es₂ P v = countInto es₁ P v := by
  unfold countInto
  exact (hp.filter _).length_eq

/-- Characterization of `processAdj`: from a mid-state whose in-degree
function counts unseen-source edges plus the pending decrements, the
neighbor loop drains the pending list, leaving the in-degree function at
the spec count and the frontier equal to the sorted set of ready nodes. -/
theorem processAdj_spec (ns : List Guarantee) (edges : List Edge)
    (hwf : EdgesWF ns edges) (hns : (ids ns).Nodup)
    (P : List String) (uid : String) (huP : uid ∉ P)
    (hclosed : ∀ e ∈ edges, e.toId ∈ P ++ [uid] → e.fromId ∈ P) :
    ∀ (vs : List String) (q : List Guarantee) (d : String → Int),
    (∀ v ∈ vs, EdgeStep edges uid v) →
    (∀ v, d v = (countInto edges (P ++ [uid]) v : Int) + vs.count v) →
    (∀ g ∈ q, g ∈ ns) →
    ((P ++ [uid]) ++ ids q).Nodup →
    (∀ g ∈ ns, g ∈ q ↔ (g.id ∉ P ++ [uid] ∧ d g.id = 0)) →
    q.Sorted qLE →
    (∀ v, (processAdj ns vs q d).2 v =
        (countInto edges (P ++ [uid]) v : Int)) ∧
    (∀ g ∈ (processAdj ns vs q d).1, g ∈ ns) ∧
    ((P ++ [uid]) ++ ids (processAdj ns vs q d).1).Nodup ∧
    (∀ g ∈ ns, g ∈ (processAdj ns vs q d).1 ↔
      (g.id ∉ P ++ [uid] ∧ (processAdj ns vs q d).2 g.id = 0)) ∧
    (processAdj ns vs q d).1.Sorted qLE := by
  intro vs
  induction vs with
  | nil =>
      intro q d _ hdeg hq hnd hready hsort
      refine ⟨fun v => ?_, hq, hnd, hready, hsort⟩
      have h := hdeg v
      simpa using h
  | cons v vs ih =>
      intro q d hstep hdeg hq hnd hready hsort
      have hunf : processAdj ns (v :: vs) q d =
          (if adjust d v (-1) v = 0 then
            match findNode ns v with
            | some gv =>
                processAdj ns vs (sortQueue (q ++ [gv])) (adjust d v (-1))
            | none => processAdj ns vs q (adjust d v (-1))
          else processAdj ns vs q (adjust d v (-1))) := rfl
      obtain ⟨e, he, hef, het⟩ := hstep v (List.mem_cons_self v vs)
      have hvns : v ∈ ids ns := het ▸ (hwf e he).2
      have hdeg1 : ∀ w, adjust d v (-1) w =
          (countInto edges (P ++ [uid]) w : Int) + vs.count w := by
        intro w
        by_cases hw : w = v
        · subst hw
          rw [adjust_self, hdeg, List.count_cons_self]
          push_cast
          ring
        · rw [adjust_other d v w (-1) hw, hdeg, List.count_cons_of_ne hw]
      have hstep' : ∀ w ∈ vs, EdgeStep edges uid w :=
        fun w hw => hstep w (List.mem_cons_of_mem v hw)
      by_cases hz : adjust d v (-1) v = 0
      · have h0 := hdeg1 v
        rw [hz] at h0
        have hc0 : countInto edges (P ++ [uid]) v = 0 ∧ vs.count v = 0 := by
          omega
        have hvP' : v ∉ P ++ [uid] := by
          intro hvP'
          exact huP (hef ▸ hclosed e he (het ▸ hvP'))
        have hdv1 : d v = 1 := by
          have h2 := adjust_self d v (-1)
          rw [hz] at h2
          omega
        have hvq : v ∉ ids q := by
          intro hvq
          obtain ⟨g, hgq, hgid⟩ := List.mem_map.mp hvq
          have h3 := ((hready g (hq g hgq)).mp hgq).2
          rw [hgid, hdv1] at h3
          exact one_ne_zero h3
        cases hfind : findNode ns v with
        | none =>
            obtain ⟨gv, hgv⟩ := findNode_isSome ns v hvns
            rw [hfind] at hgv
            exact absurd hgv (by simp)
        | some gv =>
            obtain ⟨hgvmem, hgvid⟩ := findNode_some ns v gv hfind
            have heq : processAdj ns (v :: vs) q d =
                processAdj ns vs (sortQueue (q ++ [gv])) (adjust d v (-1)) := by
              rw [hunf, if_pos hz, hfind]
            rw [heq]
            have hq1 : ∀ g ∈ sortQueue (q ++ [gv]), g ∈ ns := by
              intro g hg
              rcases List.mem_append.mp (mem_sortQueue.mp hg) with h1 | h1
              · exact hq g h1
              · rw [List.mem_singleton.mp h1]
                exact hgvmem
            have hids : (ids (sortQueue (q ++ [gv]))).Perm (ids q ++ [v]) := by
              have h1 : (sortQueue (q ++ [gv])).Perm (q ++ [gv]) :=
                sortQueue_perm _
              have h2 := h1.map Guarantee.id
              simpa [ids, hgvid] using h2
            have hvnotin : v ∉ (P ++ [uid]) ++ ids q := by
              intro hmem
              rcases List.mem_append.mp hmem with h1 | h1
              · exact hvP' h1
              · exact hvq h1
            have hp3 : ((P ++ [uid]) ++ ids (sortQueue (q ++ [gv]))).Perm
                (v :: ((P ++ [uid]) ++ ids q)) := by
              refine (List.Perm.append_left (P ++ [uid]) hids).trans ?_
              rw [← List.append_assoc]
              exact List.perm_append_singleton v _
            have hnd1 : ((P ++ [uid]) ++ ids (sortQueue (q ++ [gv]))).Nodup :=
              hp3.nodup_iff.mpr (List.nodup_cons.mpr ⟨hvnotin, hnd⟩)
            have hready1 : ∀ g ∈ ns, g ∈ sortQueue (q ++ [gv]) ↔
                (g.id ∉ P ++ [uid] ∧ adjust d v (-1) g.id = 0) := by
              intro g hg
              rw [mem_sortQueue, List.mem_append, List.mem_singleton]
              by_cases hgid : g.id = v
              · have hgv : g = gv :=
                  nodup_ids_inj hns hg hgvmem (by rw [hgid, hgvid])
                constructor
                · intro _
                  exact ⟨hgid ▸ hvP', by rw [hgid]; exact hz⟩
                · intro _
                  exact Or.inr hgv
              · constructor
                · intro hmem
                  rcases hmem with h1 | h1
                  · have h2 := (hready g hg).mp h1
                    exact ⟨h2.1, by
                      rw [adjust_other d v g.id (-1) hgid]; exact h2.2⟩
                  · exact absurd (by rw [h1, hgvid]) hgid
                · intro hcon
                  obtain ⟨h1, h2⟩ := hcon
                  rw [adjust_other d v g.id (-1) hgid] at h2
                  exact Or.inl ((hready g hg).mpr ⟨h1, h2⟩)
            exact ih (sortQueue (q ++ [gv])) (adjust d v (-1)) hstep' hdeg1
              hq1 hnd1 hready1 (sortQueue_sorted _)
      · have heq : processAdj ns (v :: vs) q d =
            processAdj ns vs q (adjust d v (-1)) := by
          rw [hunf, if_neg hz]
        rw [heq]
        have hready1 : ∀ g ∈ ns, g ∈ q ↔
            (g.id ∉ P ++ [uid] ∧ adjust d v (-1) g.id = 0) := by
          intro g hg
          by_cases hgid : g.id = v
          · have hdvne : d g.id ≠ 0 := by
              rw [hgid]
              have h := hdeg v
              rw [List.count_cons_self] at h
              omega
            constructor
            · intro hmem
              exact absurd ((hready g hg).mp hmem).2 hdvne
            · intro hcon
              obtain ⟨_, h2⟩ := hcon
              rw [hgid] at h2
              exact absurd h2 hz
          · rw [adjust_other d v g.id (-1) hgid]
            exact hready g hg
        exact ih q (adjust d v (-1)) hstep' hdeg1 hq hnd hready1 hsort

/-- One iteration of `topoLoop` preserves the loop invariant. -/
theorem topoLoop_inv_step (ns : List Guarantee) (edges : List Edge)
    (hwf : EdgesWF ns edges) (hns : (ids ns).Nodup)
    (u : Guarantee) (rest : List Guarantee) (d : String → Int)
    (result : List Guarantee)
    (hinv : KInv ns edges (u :: rest) d result) :
    KInv ns edges (processAdj ns (adjOf edges u.id) rest d).1
      (processAdj ns (adjOf edges u.id) rest d).2 (result ++ [u]) := by
  have huns : u ∈ ns := hinv.qSub u (List.mem_cons_self u rest)
  obtain ⟨huP, hdu⟩ := (hinv.ready u huns).mp (List.mem_cons_self u rest)
  have hcnt0 : countInto edges (ids result) u.id = 0 := by
    have h := hinv.deg u.id
    rw [hdu] at h
    omega
  have hfil : edges.filter
      (fun e => decide (e.toId = u.id ∧ e.fromId ∉ ids result)) = [] :=
    List.length_eq_zero.mp hcnt0
  have hsrc : ∀ e ∈ edges, e.toId = u.id → e.fromId ∈ ids result := by
    intro e he het
    by_contra hnot
    have h := List.filter_eq_nil_iff.mp hfil e he
    simp [het, hnot] at h
  have hclosed : ∀ e ∈ edges, e.toId ∈ ids result ++ [u.id] →
      e.fromId ∈ ids result := by
    intro e he hto
    rcases List.mem_append.mp hto with h | h
    · obtain ⟨l₁, g, l₂, hres, hgid, hfrom⟩ := hinv.orderInv e he h
      rw [hres, ids, List.map_append]
      exact List.mem_append.mpr (Or.inl hfrom)
    · exact hsrc e he (List.mem_singleton.mp h)
  have hnd' : ((ids result ++ [u.id]) ++ ids rest).Nodup := by
    rw [List.append_assoc]
    exact hinv.nodupRQ
  have huid_not_rest : u.id ∉ ids rest := by
    have h := hinv.nodupRQ.of_append_right
    exact (List.nodup_cons.mp h).1
  have hdeg_mid : ∀ v, d v = (countInto edges (ids result ++ [u.id]) v : Int) +
      (adjOf edges u.id).count v := by
    intro v
    rw [hinv.deg v, adjOf_count,
      countInto_split edges (ids result) u.id huP v]
    push_cast
    ring
  have hstep' : ∀ v ∈ adjOf edges u.id, EdgeStep edges u.id v := by
    intro v hv
    obtain ⟨e, he, hev⟩ := List.mem_map.mp hv
    obtain ⟨he', hfrom⟩ := List.mem_filter.mp he
    exact ⟨e, he', by simpa using hfrom, hev⟩
  have hq' : ∀ g ∈ rest, g ∈ ns :=
    fun g hg => hinv.qSub g (List.mem_cons_of_mem u hg)
  have hready' : ∀ g ∈ ns, g ∈ rest ↔
      (g.id ∉ ids result ++ [u.id] ∧ d g.id = 0) := by
    intro g hg
    constructor
    · intro hmem
      have h := (hinv.ready g hg).mp (List.mem_cons_of_mem u hmem)
      refine ⟨?_, h.2⟩
      intro hin
      rcases List.mem_append.mp hin with h1 | h1
      · exact h.1 h1
      · have h2 : g.id ∈ ids rest := List.mem_map_of_mem Guarantee.id hmem
        rw [List.mem_singleton.mp h1] at h2
        exact huid_not_rest h2
    · intro hcon
      obtain ⟨h1, h2⟩ := hcon
      have h1P : g.id ∉ ids result :=
        fun hc => h1 (List.mem_append.mpr (Or.inl hc))
      have hmem := (hinv.ready g hg).mpr ⟨h1P, h2⟩
      rcases List.mem_cons.mp hmem with h | h
      · exfalso
        apply h1
        rw [h]
        exact List.mem_append.mpr (Or.inr (List.mem_singleton_self u.id))
      · exact h
  obtain ⟨c1, c2, c3, c4, c5⟩ := processAdj_spec ns edges hwf hns
    (ids result) u.id huP hclosed (adjOf edges u.id) rest d hstep' hdeg_mid
    hq' hnd' hready' (List.Sorted.of_cons hinv.sortedQ)
  have hid' : ids (result ++ [u]) = ids result ++ [u.id] := by
    simp [ids]
  refine ⟨?_, c2, ?_, ?_, ?_, c5, ?_⟩
  · intro g hg
    rcases List.mem_append.mp hg with h | h
    · exact hinv.resSub g h
    · rw [List.mem_singleton.mp h]
      exact huns
  · rw [hid']
    exact c3
  · intro v
    rw [hid']
    exact c1 v
  · intro g hg
    rw [hid']
    exact c4 g hg
  · intro e he hto
    rw [hid'] at hto
    rcases List.mem_append.mp hto with h | h
    · obtain ⟨l₁, g, l₂, hres, hgid, hfrom⟩ := hinv.orderInv e he h
      refine ⟨l₁, g, l₂ ++ [u], ?_, hgid, hfrom⟩
      rw [hres, List.append_assoc]
      rfl
    · exact ⟨result, u, [], rfl, (List.mem_singleton.mp h).symm,
        hsrc e he (List.mem_singleton.mp h)⟩

/-- Output length never exceeds the node count under the loop invariant. -/
theorem kinv_length (ns : List Guarantee) (edges : List Edge)
    (queue : List Guarantee) (d : String → Int) (result : List Guarantee)
    (hinv : KInv ns edges queue d result) : result.length ≤ ns.length := by
  have hnd : (ids result).Nodup := hinv.nodupRQ.of_append_left
  have hsub : ids result ⊆ ids ns := by
    intro v hv
    obtain ⟨g, hg, hgid⟩ := List.mem_map.mp hv
    exact hgid ▸ List.mem_map_of_mem Guarantee.id (hinv.resSub g hg)
  have h := (List.subperm_of_subset hnd hsub).length_le
  simpa [ids] using h

/-- With fuel at least the number of unprocessed nodes plus one, the loop
drains the frontier and the output satisfies `KFinal`. -/
theorem topoLoop_kfinal (ns : List Guarantee) (edges : List Edge)
    (hwf : EdgesWF ns edges) (hns : (ids ns).Nodup) :
    ∀ (fuel : Nat) (queue : List Guarantee) (d : String → Int)
      (result : List Guarantee),
    KInv ns edges queue d result → ns.length + 1 ≤ result.length + fuel →
    KFinal ns edges (topoLoop ns edges fuel queue d result) := by
  intro fuel
  induction fuel with
  | zero =>
      intro queue d result hinv hlen
      exfalso
      have h := kinv_length ns edges queue d result hinv
      omega
  | succ f ih =>
      intro queue d result hinv hlen
      cases queue with
      | nil =>
          have heq : topoLoop ns edges (f + 1) [] d result = result := rfl
          rw [heq]
          refine ⟨hinv.resSub, ?_, hinv.orderInv, ?_⟩
          · have h := hinv.nodupRQ
            simpa [ids] using h
          · intro g hg hgr hc0
            have hgid : g.id ∉ ids result := by
              intro hin
              obtain ⟨g', hg', hgid'⟩ := List.mem_map.mp hin
              have hgg : g' = g :=
                nodup_ids_inj hns (hinv.resSub g' hg') hg hgid'
              exact hgr (hgg ▸ hg')
            have hd0 : d g.id = 0 := by
              rw [hinv.deg g.id, hc0]
              simp
            have h := (hinv.ready g hg).mpr ⟨hgid, hd0⟩
            simp at h
      | cons u rest =>
          have hstep := topoLoop_inv_step ns edges hwf hns u rest d result hinv
          have heq : topoLoop ns edges (f + 1) (u :: rest) d result =
              topoLoop ns edges f (processAdj ns (adjOf edges u.id) rest d).1
                (processAdj ns (adjOf edges u.id) rest d).2
                (result ++ [u]) := rfl
          rw [heq]
          apply ih _ _ _ hstep
          rw [List.length_append]
          simp only [List.length_singleton]
          omega

/-- The entry state of `TopoSort` satisfies the loop invariant. -/
theorem kinv_init (ns : List Guarantee) (edges : List Edge)
    (hns : (ids ns).Nodup) :
    KInv ns edges (sortQueue (ns.filter (fun g => inDeg0 edges g.id == 0)))
      (inDeg0 edges) [] := by
  have hfilnd : (ids (ns.filter (fun g => inDeg0 edges g.id == 0))).Nodup :=
    ((List.filter_sublist ns).map Guarantee.id).nodup hns
  have hidsp : (ids (sortQueue (ns.filter (fun g => inDeg0 edges g.id == 0)))).Perm
      (ids (ns.filter (fun g => inDeg0 edges g.id == 0))) :=
    (sortQueue_perm _).map Guarantee.id
  refine ⟨?_, ?_, ?_, ?_, ?_, sortQueue_sorted _, ?_⟩
  · intro g hg
    exact absurd hg (List.not_mem_nil g)
  · intro g hg
    exact (List.mem_filter.mp (mem_sortQueue.mp hg)).1
  · exact hidsp.nodup_iff.mpr hfilnd
  · intro v
    exact inDeg0_eq edges v
  · intro g hg
    constructor
    · intro hq
      have h := List.mem_filter.mp (mem_sortQueue.mp hq)
      exact ⟨by simp [ids], by simpa using h.2⟩
    · intro hcon
      exact mem_sortQueue.mpr
        (List.mem_filter.mpr ⟨hg, by simpa using hcon.2⟩)
  · intro e _ hto
    simp [ids] at hto

/-- Unfolding equation of `TopoSort`. -/
theorem topoSort_unfold (ns : List Guarantee) (es : List Edge) :
    TopoSort ns es =
      (if (topoLoop ns es (ns.length + 1)
            (sortQueue (ns.filter (fun g => inDeg0 es g.id == 0)))
            (inDeg0 es) []).length = ns.length
       then some (topoLoop ns es (ns.length + 1)
            (sortQueue (ns.filter (fun g => inDeg0 es g.id == 0)))
            (inDeg0 es) [])
       else none) := rfl

/-- A successful `TopoSort` satisfies `KFinal` and returns all nodes. -/
theorem topoSort_spec (ns : List Guarantee) (edges : List Edge)
    (hwf : EdgesWF ns edges) (hns : (ids ns).Nodup)
    (res : List Guarantee) (h : TopoSort ns edges = some res) :
    KFinal ns edges res ∧ res.length = ns.length := by
  rw [topoSort_unfold] at h
  by_cases hc : (topoLoop ns edges (ns.length + 1)
      (sortQueue (ns.filter (fun g => inDeg0 edges g.id == 0)))
      (inDeg0 edges) []).length = ns.length
  · rw [if_pos hc] at h
    have hres := Option.some.inj h
    rw [← hres]
    refine ⟨?_, hc⟩
    exact topoLoop_kfinal ns edges hwf hns (ns.length + 1) _ _ []
      (kinv_init ns edges hns) (by simp)
  · rw [if_neg hc] at h
    exact absurd h (by simp)

/-- A successful `TopoSort` output has the same ids as the node list. -/
theorem topoSort_ids_perm (ns : List Guarantee) (edges : List Edge)
    (hwf : EdgesWF ns edges) (hns : (ids ns).Nodup)
    (res : List Guarantee) (h : TopoSort ns edges = some res) :
    (ids res).Perm (ids ns) := by
  obtain ⟨hkf, hlen⟩ := topoSort_spec ns edges hwf hns res h
  have hsub : ids res ⊆ ids ns := by
    intro v hv
    obtain ⟨g, hg, hgid⟩ := List.mem_map.mp hv
    exact hgid ▸ List.mem_map_of_mem Guarantee.id (hkf.sub g hg)
  refine (List.subperm_of_subset hkf.nodup hsub).perm_of_length_le ?_
  simp [ids, hlen]

/-- `createStep` preserves the guarantee's id. -/
theorem createStep_id (g : Guarantee) (b : Bool) :
    (createStep g b).id = g.id := by
  unfold createStep
  cases g.statement.handler <;> rfl

/-- C1: Every edge of the dependency graph is respected by the emitted
plan: for every edge, the step whose id is the edge's source appears
strictly before the step whose id is the edge's target in the plan's
ordered step list. -/
theorem plan_respects_graph_edges (g : Graph) (prog : List Statement)
    (plan : Plan) (hwf : EdgesWF g.nodes g.edges)
    (hns : (ids g.nodes).Nodup)
    (hplan : CreatePlan g prog = some plan)
    (e : Edge) (he : e ∈ g.edges) :
    ∃ l₁ s l₂, plan.steps = l₁ ++ s :: l₂ ∧ s.id = e.toId ∧
      e.fromId ∈ l₁.map Step.id := by
  unfold CreatePlan at hplan
  cases hts : TopoSort g.nodes g.edges with
  | none =>
      rw [hts] at hplan
      exact absurd hplan (by simp)
  | some res =>
      rw [hts] at hplan
      have hplan' := Option.some.inj hplan
      obtain ⟨hkf, hlen⟩ := topoSort_spec g.nodes g.edges hwf hns res hts
      have hperm := topoSort_ids_perm g.nodes g.edges hwf hns res hts
      have hto : e.toId ∈ ids res := hperm.mem_iff.mpr ((hwf e he).2)
      obtain ⟨l₁, gg, l₂, hres, hgid, hfrom⟩ := hkf.orderInv e he hto
      refine ⟨l₁.map (fun x => createStep x (g.invariants.contains x.id)),
        createStep gg (g.invariants.contains gg.id),
        l₂.map (fun x => createStep x (g.invariants.contains x.id)),
        ?_, ?_, ?_⟩
      · rw [← hplan']
        simp [hres]
      · rw [createStep_id]
        exact hgid
      · simpa [List.map_map, Function.comp, createStep_id, ids]
          using hfrom

/-- Witness for C1 at the two-node acyclic graph: the `requires` edge
from `a` to `b` is respected by the emitted plan. -/
theorem plan_respects_graph_edges_witness :
    EdgesWF wGraphAcyclic.nodes wGraphAcyclic.edges ∧
    (ids wGraphAcyclic.nodes).Nodup ∧
    CreatePlan wGraphAcyclic [] = some wPlanA ∧
    (⟨"a", "b", "requires"⟩ : Edge) ∈ wGraphAcyclic.edges ∧
    (∃ l₁ s l₂, wPlanA.steps = l₁ ++ s :: l₂ ∧
      s.id = (⟨"a", "b", "requires"⟩ : Edge).toId ∧
      (⟨"a", "b", "requires"⟩ : Edge).fromId ∈ l₁.map Step.id) :=
  ⟨by unfold EdgesWF; decide, by decide, by decide, by decide,
   plan_respects_graph_edges wGraphAcyclic [] wPlanA
     (by unfold EdgesWF; decide) (by decide)
     (by decide) ⟨"a", "b", "requires"⟩ (by decide)⟩

/-- A chain strictly increases any function that increases along the
relation. -/
theorem chain_lt_of_mono {R : String → String → Prop} (f : String → Nat)
    (hmono : ∀ x y, R x y → f x < f y) :
    ∀ (c : List String) (a b : String), List.Chain R a (c ++ [b]) → f a < f b
  | [], a, b, h => hmono a b (List.chain_cons.mp h).1
  | x :: c, a, b, h =>
      have h1 := List.chain_cons.mp h
      lt_trans (hmono a x h1.1) (chain_lt_of_mono f hmono c x b h1.2)

/-- A list with a repetition splits around the repeated element. -/
theorem exists_dup_split : ∀ (l : List String), ¬ l.Nodup →
    ∃ x l₁ l₂ l₃, l = l₁ ++ x :: (l₂ ++ x :: l₃)
  | [], h => absurd List.nodup_nil h
  | a :: t, h => by
      by_cases ha : a ∈ t
      · obtain ⟨s, u, hsu⟩ := List.append_of_mem ha
        exact ⟨a, [], s, u, by rw [hsu]; rfl⟩
      · have ht : ¬ t.Nodup := fun hn => h (List.nodup_cons.mpr ⟨ha, hn⟩)
        obtain ⟨x, l₁, l₂, l₃, hl⟩ := exists_dup_split t ht
        exact ⟨x, a :: l₁, l₂, l₃, by rw [hl]; rfl⟩

/-- A nonempty set of nodes each of which has a predecessor inside the set
contains a cycle (pigeonhole along a long enough walk). -/
theorem cycle_of_preds (edges : List Edge) (U V : List String)
    (hUV : ∀ u ∈ U, u ∈ V) (hne : U ≠ [])
    (hpred : ∀ u ∈ U, ∃ p ∈ U, EdgeStep edges p u) : HasCycle edges := by
  have hwalk : ∀ k : Nat, ∃ l : List String, l.length = k + 1 ∧
      (∀ x ∈ l, x ∈ U) ∧ l.Chain' (EdgeStep edges) := by
    intro k
    induction k with
    | zero =>
        cases hU : U with
        | nil => exact absurd hU hne
        | cons u t =>
            refine ⟨[u], rfl, ?_, List.Chain.nil⟩
            intro x hx
            rw [List.mem_singleton.mp hx]
            exact List.mem_cons_self u t
    | succ k ihk =>
        obtain ⟨l, hlen, hmem, hchain⟩ := ihk
        cases l with
        | nil => simp at hlen
        | cons v t =>
            obtain ⟨p, hpU, hpe⟩ := hpred v (hmem v (List.mem_cons_self v t))
            refine ⟨p :: v :: t, ?_, ?_, ?_⟩
            · rw [List.length_cons, hlen]
            · intro x hx
              rcases List.mem_cons.mp hx with h | h
              · rw [h]; exact hpU
              · exact hmem x h
            · exact List.chain'_cons.mpr ⟨hpe, hchain⟩
  obtain ⟨l, hlen, hmem, hchain⟩ := hwalk V.length
  have hnnd : ¬ l.Nodup := by
    intro hnd
    have hsp := (List.subperm_of_subset hnd
      (fun x hx => hUV x (hmem x hx))).length_le
    omega
  obtain ⟨x, l₁, l₂, l₃, hl⟩ := exists_dup_split l hnnd
  have hinf : (x :: (l₂ ++ [x])).IsInfix l := by
    refine ⟨l₁, l₃, ?_⟩
    rw [hl]
    simp
  exact ⟨x, l₂, hchain.infix hinf⟩

/-- A successful `TopoSort` certifies acyclicity of the edge list. -/
theorem topoSort_acyclic (ns : List Guarantee) (edges : List Edge)
    (hwf : EdgesWF ns edges) (hns : (ids ns).Nodup)
    (res : List Guarantee) (h : TopoSort ns edges = some res) :
    ¬ HasCycle edges := by
  obtain ⟨hkf, hlen⟩ := topoSort_spec ns edges hwf hns res h
  have hperm := topoSort_ids_perm ns edges hwf hns res h
  rintro ⟨a, c, hchain⟩
  have hmono : ∀ x y, EdgeStep edges x y →
      (ids res).indexOf x < (ids res).indexOf y := by
    rintro x y ⟨e, he, hex, hey⟩
    subst hex
    subst hey
    have hto : e.toId ∈ ids res := hperm.mem_iff.mpr ((hwf e he).2)
    obtain ⟨l₁, gg, l₂, hres, hgid, hfrom⟩ := hkf.orderInv e he hto
    have hids : ids res = ids l₁ ++ gg.id :: ids l₂ := by
      rw [hres]
      simp [ids]
    have hndres := hkf.nodup
    rw [hids] at hndres ⊢
    have h2 : e.toId ∉ ids l₁ := by
      intro hc
      rw [← hgid] at hc
      exact (List.nodup_append.mp hndres).2.2 hc
        (List.mem_cons_self gg.id (ids l₂))
    rw [List.indexOf_append_of_mem hfrom,
      List.indexOf_append_of_not_mem h2, ← hgid, List.indexOf_cons_self]
    have h1 : (ids l₁).indexOf e.fromId < (ids l₁).length :=
      List.indexOf_lt_length.mpr hfrom
    omega
  exact absurd (chain_lt_of_mono ((ids res).indexOf ·) hmono c a a hchain)
    (lt_irrefl _)

/-- A failing `TopoSort` exhibits a cycle. -/
theorem topoSort_none_cycle (ns : List Guarantee) (edges : List Edge)
    (hwf : EdgesWF ns edges) (hns : (ids ns).Nodup)
    (h : TopoSort ns edges = none) : HasCycle edges := by
  have hkf : KFinal ns edges (topoLoop ns edges (ns.length + 1)
      (sortQueue (ns.filter (fun g => inDeg0 edges g.id == 0)))
      (inDeg0 edges) []) :=
    topoLoop_kfinal ns edges hwf hns (ns.length + 1) _ _ []
      (kinv_init ns edges hns) (by simp)
  set res := topoLoop ns edges (ns.length + 1)
      (sortQueue (ns.filter (fun g => inDeg0 edges g.id == 0)))
      (inDeg0 edges) [] with hresdef
  have hlen : res.length ≠ ns.length := by
    intro hc
    rw [topoSort_unfold, ← hresdef, if_pos hc] at h
    exact absurd h (by simp)
  have hreslen : res.length ≤ ns.length := by
    have hsub : ids res ⊆ ids ns := by
      intro v hv
      obtain ⟨g, hg, hgid⟩ := List.mem_map.mp hv
      exact hgid ▸ List.mem_map_of_mem Guarantee.id (hkf.sub g hg)
    have h1 := (List.subperm_of_subset hkf.nodup hsub).length_le
    simpa [ids] using h1
  have hmiss : ∃ g ∈ ns, g ∉ res := by
    by_contra hall
    push_neg at hall
    have hsub : ids ns ⊆ ids res := by
      intro v hv
      obtain ⟨g, hg, hgid⟩ := List.mem_map.mp hv
      exact hgid ▸ List.mem_map_of_mem Guarantee.id (hall g hg)
    have h1 := (List.subperm_of_subset hns hsub).length_le
    simp [ids] at h1
    omega
  obtain ⟨g₀, hg₀ns, hg₀res⟩ := hmiss
  have hg₀id : g₀.id ∉ ids res := by
    intro hin
    obtain ⟨g', hg', hgid'⟩ := List.mem_map.mp hin
    exact hg₀res ((nodup_ids_inj hns (hkf.sub g' hg') hg₀ns hgid') ▸ hg')
  have hne : (ids ns).filter (fun v => decide (v ∉ ids res)) ≠ [] := by
    have hm : g₀.id ∈ (ids ns).filter (fun v => decide (v ∉ ids res)) :=
      List.mem_filter.mpr
        ⟨List.mem_map_of_mem Guarantee.id hg₀ns, by simpa using hg₀id⟩
    intro hc
    rw [hc] at hm
    exact absurd hm (List.not_mem_nil _)
  have hpred : ∀ u ∈ (ids ns).filter (fun v => decide (v ∉ ids res)),
      ∃ p ∈ (ids ns).filter (fun v => decide (v ∉ ids res)),
        EdgeStep edges p u := by
    intro u hu
    obtain ⟨huns, hures'⟩ := List.mem_filter.mp hu
    have hures : u ∉ ids res := by simpa using hures'
    obtain ⟨gu, hgu, hguid⟩ := List.mem_map.mp huns
    have hgunotres : gu ∉ res := by
      intro hc
      exact hures (hguid ▸ List.mem_map_of_mem Guarantee.id hc)
    have hstuck := hkf.stuck gu hgu hgunotres
    rw [hguid] at hstuck
    have hedge : ∃ e ∈ edges, e.toId = u ∧ e.fromId ∉ ids res := by
      by_contra hno
      push_neg at hno
      apply hstuck
      unfold countInto
      rw [List.length_eq_zero, List.filter_eq_nil_iff]
      intro e he
      simp only [decide_eq_true_eq]
      rintro ⟨h1, h2⟩
      exact h2 (hno e he h1)
    obtain ⟨e, he, het, hef⟩ := hedge
    refine ⟨e.fromId, ?_, e, he, rfl, het⟩
    exact List.mem_filter.mpr ⟨(hwf e he).1, by simpa using hef⟩
  exact cycle_of_preds edges _ (ids ns)
    (fun u hu => (List.mem_filter.mp hu).1) hne hpred

/-- C2: With well-formed edges and duplicate-free node ids, the planner
emits a plan exactly when the dependency graph is acyclic; on a cycle it
returns no plan (the Go code returns a nil plan and a non-nil error). -/
theorem createPlan_some_iff_acyclic (g : Graph) (prog : List Statement)
    (hwf : EdgesWF g.nodes g.edges) (hns : (ids g.nodes).Nodup) :
    (CreatePlan g prog).isSome ↔ ¬ HasCycle g.edges := by
  constructor
  · intro hsome
    obtain ⟨plan, hplan⟩ := Option.isSome_iff_exists.mp hsome
    unfold CreatePlan at hplan
    cases hts : TopoSort g.nodes g.edges with
    | none =>
        rw [hts] at hplan
        exact absurd hplan (by simp)
    | some res => exact topoSort_acyclic g.nodes g.edges hwf hns res hts
  · intro hnc
    cases hts : TopoSort g.nodes g.edges with
    | none =>
        exact absurd (topoSort_none_cycle g.nodes g.edges hwf hns hts) hnc
    | some res =>
        unfold CreatePlan
        rw [hts]
        rfl

/-- Witness for C2 at the two-node acyclic graph. -/
theorem createPlan_some_iff_acyclic_witness :
    EdgesWF wGraphAcyclic.nodes wGraphAcyclic.edges ∧
    (ids wGraphAcyclic.nodes).Nodup ∧
    ((CreatePlan wGraphAcyclic []).isSome ↔ ¬ HasCycle wGraphAcyclic.edges) :=
  ⟨by unfold EdgesWF; decide, by decide,
   createPlan_some_iff_acyclic wGraphAcyclic []
     (by unfold EdgesWF; decide) (by decide)⟩

/-- A guarantee list with duplicate-free ids is itself duplicate-free. -/
theorem nodup_of_ids_nodup {l : List Guarantee} (h : (ids l).Nodup) :
    l.Nodup :=
  List.Nodup.of_map Guarantee.id h

/-- The loop's output is the same under any permutation of the node and
edge lists, as long as both runs start from the same frontier, in-degree
function and output: the re-sorted frontier is determined by the ready
set, which only depends on the node and edge multisets. -/
theorem topoLoop_congr (ns₁ ns₂ : List Guarantee) (es₁ es₂ : List Edge)
    (hwf₁ : EdgesWF ns₁ es₁) (hns₁ : (ids ns₁).Nodup)
    (hpn : ns₂.Perm ns₁) (hpe : es₂.Perm es₁) :
    ∀ (fuel : Nat) (queue : List Guarantee) (d : String → Int)
      (result : List Guarantee),
    KInv ns₁ es₁ queue d result → KInv ns₂ es₂ queue d result →
    topoLoop ns₂ es₂ fuel queue d result =
      topoLoop ns₁ es₁ fuel queue d result := by
  have hwf₂ : EdgesWF ns₂ es₂ := by
    intro e he
    have h := hwf₁ e (hpe.mem_iff.mp he)
    exact ⟨((hpn.map Guarantee.id).mem_iff).mpr h.1,
      ((hpn.map Guarantee.id).mem_iff).mpr h.2⟩
  have hns₂ : (ids ns₂).Nodup := ((hpn.map Guarantee.id).nodup_iff).mpr hns₁
  intro fuel
  induction fuel with
  | zero =>
      intro queue d result _ _
      rfl
  | succ f ih =>
      intro queue d result hinv₁ hinv₂
      cases queue with
      | nil => rfl
      | cons u rest =>
          have hstep₁ :=
            topoLoop_inv_step ns₁ es₁ hwf₁ hns₁ u rest d result hinv₁
          have hstep₂ :=
            topoLoop_inv_step ns₂ es₂ hwf₂ hns₂ u rest d result hinv₂
          have hd : (processAdj ns₂ (adjOf es₂ u.id) rest d).2 =
              (processAdj ns₁ (adjOf es₁ u.id) rest d).2 := by
            funext v
            rw [hstep₂.deg v, hstep₁.deg v, countInto_perm hpe]
          have hmem : ∀ g, g ∈ (processAdj ns₂ (adjOf es₂ u.id) rest d).1 ↔
              g ∈ (processAdj ns₁ (adjOf es₁ u.id) rest d).1 := by
            intro g
            constructor
            · intro hg
              have hgns₂ := hstep₂.qSub g hg
              have h := (hstep₂.ready g hgns₂).mp hg
              refine (hstep₁.ready g (hpn.mem_iff.mp hgns₂)).mpr ⟨h.1, ?_⟩
              rw [← congrFun hd g.id]
              exact h.2
            · intro hg
              have hgns₁ := hstep₁.qSub g hg
              have h := (hstep₁.ready g hgns₁).mp hg
              refine (hstep₂.ready g (hpn.mem_iff.mpr hgns₁)).mpr ⟨h.1, ?_⟩
              rw [congrFun hd g.id]
              exact h.2
          have hnd2 : (ids (processAdj ns₂ (adjOf es₂ u.id) rest d).1).Nodup :=
            hstep₂.nodupRQ.of_append_right
          have hnd1 : (ids (processAdj ns₁ (adjOf es₁ u.id) rest d).1).Nodup :=
            hstep₁.nodupRQ.of_append_right
          have hq : (processAdj ns₂ (adjOf es₂ u.id) rest d).1 =
              (processAdj ns₁ (adjOf es₁ u.id) rest d).1 := by
            have hperm :=
              (List.perm_ext_iff_of_nodup (nodup_of_ids_nodup hnd2)
                (nodup_of_ids_nodup hnd1)).mpr hmem
            exact sorted_nodup_eq hperm hstep₂.sortedQ hstep₁.sortedQ hnd2
          have heq₂ : topoLoop ns₂ es₂ (f + 1) (u :: rest) d result =
              topoLoop ns₂ es₂ f (processAdj ns₂ (adjOf es₂ u.id) rest d).1
                (processAdj ns₂ (adjOf es₂ u.id) rest d).2
                (result ++ [u]) := rfl
          have heq₁ : topoLoop ns₁ es₁ (f + 1) (u :: rest) d result =
              topoLoop ns₁ es₁ f (processAdj ns₁ (adjOf es₁ u.id) rest d).1
                (processAdj ns₁ (adjOf es₁ u.id) rest d).2
                (result ++ [u]) := rfl
          have hstep₂' : KInv ns₂ es₂
              (processAdj ns₁ (adjOf es₁ u.id) rest d).1
              (processAdj ns₁ (adjOf es₁ u.id) rest d).2 (result ++ [u]) := by
            rw [← hq, ← hd]
            exact hstep₂
          rw [heq₂, heq₁, hq, hd]
          exact ih _ _ _ hstep₁ hstep₂'

/-- `TopoSort` is invariant under permutation of the node and edge lists:
the tie-broken sort canonicalizes the Go map iteration order away. -/
theorem topoSort_perm_eq (ns₁ ns₂ : List Guarantee) (es₁ es₂ : List Edge)
    (hwf₁ : EdgesWF ns₁ es₁) (hns₁ : (ids ns₁).Nodup)
    (hpn : ns₂.Perm ns₁) (hpe : es₂.Perm es₁) :
    TopoSort ns₂ es₂ = TopoSort ns₁ es₁ := by
  have hns₂ : (ids ns₂).Nodup := ((hpn.map Guarantee.id).nodup_iff).mpr hns₁
  have hd0 : inDeg0 es₂ = inDeg0 es₁ := by
    funext v
    rw [inDeg0_eq, inDeg0_eq, countInto_perm hpe]
  have hq0 : sortQueue (ns₂.filter (fun g => inDeg0 es₂ g.id == 0)) =
      sortQueue (ns₁.filter (fun g => inDeg0 es₁ g.id == 0)) := by
    rw [hd0]
    have hnd2 : (ids (sortQueue
        (ns₂.filter (fun g => inDeg0 es₁ g.id == 0)))).Nodup :=
      (((sortQueue_perm _).map Guarantee.id).nodup_iff).mpr
        (((List.filter_sublist ns₂).map Guarantee.id).nodup hns₂)
    refine sorted_nodup_eq ?_ (sortQueue_sorted _) (sortQueue_sorted _) hnd2
    exact (sortQueue_perm _).trans
      ((hpn.filter _).trans (sortQueue_perm _).symm)
  have hinit₂ : KInv ns₂ es₂
      (sortQueue (ns₁.filter (fun g => inDeg0 es₁ g.id == 0)))
      (inDeg0 es₁) [] := by
    rw [← hq0, ← hd0]
    exact kinv_init ns₂ es₂ hns₂
  have hlen : ns₂.length = ns₁.length := hpn.length_eq
  rw [topoSort_unfold ns₂ es₂, topoSort_unfold ns₁ es₁, hq0, hd0, hlen,
    topoLoop_congr ns₁ ns₂ es₁ es₂ hwf₁ hns₁ hpn hpe (ns₁.length + 1) _ _ []
      (kinv_init ns₁ es₁ hns₁) hinit₂]

/-- C3 (amended): The planner's output is invariant under the Go map
iteration order of the graph's node and edge sets: two graphs whose node
and edge lists are permutations of each other (with the same invariant
set) yield the same plan, because the topological sort's tie-breaking by
priority descending then id ascending canonicalizes the order.  Full
pipeline determinism fails upstream of the sort; see the counterexample. -/
theorem createPlan_map_order_invariant (g₁ g₂ : Graph)
    (prog : List Statement)
    (hwf : EdgesWF g₁.nodes g₁.edges) (hns : (ids g₁.nodes).Nodup)
    (hpn : g₂.nodes.Perm g₁.nodes) (hpe : g₂.edges.Perm g₁.edges)
    (hinv : g₂.invariants = g₁.invariants) :
    CreatePlan g₂ prog = CreatePlan g₁ prog := by
  unfold CreatePlan
  rw [topoSort_perm_eq g₁.nodes g₂.nodes g₁.edges g₂.edges hwf hns hpn hpe,
    hinv]

/-- Witness for the amended C3: the acyclic witness graph with its node
map scanned in the reverse order produces the same plan. -/
theorem createPlan_map_order_invariant_witness :
    EdgesWF wGraphAcyclic.nodes wGraphAcyclic.edges ∧
    (ids wGraphAcyclic.nodes).Nodup ∧
    wGraphAcyclicRev.nodes.Perm wGraphAcyclic.nodes ∧
    wGraphAcyclicRev.edges.Perm wGraphAcyclic.edges ∧
    CreatePlan wGraphAcyclicRev [] = CreatePlan wGraphAcyclic [] :=
  ⟨by unfold EdgesWF; decide, by decide,
   List.Perm.swap _ _ _, List.Perm.refl _,
   createPlan_map_order_invariant wGraphAcyclic wGraphAcyclicRev []
     (by unfold EdgesWF; decide) (by decide)
     (List.Perm.swap _ _ _) (List.Perm.refl _) rfl⟩

/-- C3 counterexample: the full compilation pipeline is not deterministic.
On `progNondet` two `frobbed` guarantees share a (condition, subject) key
at different positions; the `requires` clause of the `exists` statement
resolves to whichever node the graph's map scan meets first, so the two
scan orders emit different edges and the serialized plans differ. -/
theorem pipeline_map_order_counterexample :
    (compilePipeline id progNondet).map planToJSON ≠
      (compilePipeline List.reverse progNondet).map planToJSON := by
  decide

end Ensura
